import Mathlib

/-!
Chatbot widget (`finance/static/finance/js/chatbot.js`)

A shallow embedding of the widget script and the properties of its markdown
renderer and of its send / history / clear life cycle.

Strings are lists of characters (`List Char`). The patterns of the script
tell apart only ASCII characters and the four line terminators, and every
match starts and ends at an ASCII character, so a character outside the basic
plane behaves as its two UTF-16 code units do.

The regular expressions of `parseMarkdown` are written as values of a small
pattern type and run by a backtracking matcher that follows the ECMAScript
matching order; the global `String.prototype.replace` loop is `replaceAll`.

The widget state is a record of the two variables of the script and of the DOM
properties it reads and writes. An `async` function is split at its first
`await` into a `...Begin` part and a `...Resume` part that takes the outcome of
the request. Response bodies have the shapes of the three endpoints. Each
child of the messages container carries its element children, which for an
`innerHTML` assignment are what the HTML parser of the browser builds; that
parser is an argument of the functions. The scroll position and the layout are
not part of the state.
-/

namespace Chatbot

/-! ## Regular expressions as used by `String.prototype.replace` -/

/-- The ECMAScript line terminators: LF, CR, U+2028 and U+2029. -/
def isLineTerminator (c : Char) : Bool :=
  c == '\n' || c == '\r' || c == '\u2028' || c == '\u2029'

/-- The character classes that occur in the patterns of the script:
`.` (anything but a line terminator) and `[^c]`. -/
inductive CharClass where
  | dot : CharClass
  | notChar (c : Char) : CharClass
deriving DecidableEq, Repr

/-- Does the class accept the character. -/
def CharClass.test : CharClass → Char → Bool
  | .dot, x => !isLineTerminator x
  | .notChar c, x => x != c

/-- The pattern items that occur in the script.  Every capturing group of the
script has the form `(cls+)` (greedy) or `(cls+?)` (lazy). -/
inductive Item where
  | chr (c : Char) : Item
  | bol : Item
  | eol : Item
  | notAhead (c : Char) : Item
  | group (greedy : Bool) (cls : CharClass) : Item
deriving DecidableEq, Repr

/-- A pattern is a sequence of items. -/
abbrev Pattern := List Item

/-- The result of a successful match: the captures in group order, the last
character consumed so far (if any) and the input that is left. -/
abbrev MatchResult := List (List Char) × Option Char × List Char

/-- `^` under the `m` flag: at the start of the input or right after a line
terminator. -/
def atLineStart : Option Char → Bool
  | none => true
  | some p => isLineTerminator p

/-- `$` under the `m` flag: at the end of the input or right before a line
terminator. -/
def atLineEnd : List Char → Bool
  | [] => true
  | x :: _ => isLineTerminator x

/-- The quantifier `cls+` / `cls+?` with continuation `k`: one character is
mandatory; after it a greedy quantifier first tries to take more and then
the continuation, a lazy one the other way round. `acc` is what the group
has taken so far. -/
def plusLoop (greedy : Bool) (cls : Char → Bool)
    (k : List Char → Option Char → List Char → Option MatchResult) :
    List Char → List Char → Option MatchResult
  | _, [] => none
  | acc, x :: xs =>
    if cls x then
      if greedy then
        (plusLoop greedy cls k (acc ++ [x]) xs).orElse
          (fun _ => k (acc ++ [x]) (some x) xs)
      else
        (k (acc ++ [x]) (some x) xs).orElse
          (fun _ => plusLoop greedy cls k (acc ++ [x]) xs)
    else none

/-- Backtracking match of a pattern at one position. `prev` is the character
before the position, `rest` the input from the position on. -/
def matchItems : Pattern → List (List Char) → Option Char → List Char → Option MatchResult
  | [], caps, prev, rest => some (caps, prev, rest)
  | .chr c :: is, caps, _, rest =>
    match rest with
    | [] => none
    | x :: xs => if x = c then matchItems is caps (some x) xs else none
  | .bol :: is, caps, prev, rest =>
    if atLineStart prev then matchItems is caps prev rest else none
  | .eol :: is, caps, prev, rest =>
    if atLineEnd rest then matchItems is caps prev rest else none
  | .notAhead c :: is, caps, prev, rest =>
    if rest.head? = some c then none else matchItems is caps prev rest
  | .group greedy cls :: is, caps, _, rest =>
    plusLoop greedy cls.test (fun cap p r => matchItems is (caps ++ [cap]) p r) [] rest

/-- The pieces of a replacement string: literal text and `$n`. -/
inductive Piece where
  | lit (s : List Char) : Piece
  | cap (n : Nat) : Piece

/-- A replacement string. -/
abbrev Template := List Piece

/-- Expansion of a replacement string with the captures of a match. -/
def expand (t : Template) (caps : List (List Char)) : List Char :=
  t.flatMap fun p =>
    match p with
    | .lit s => s
    | .cap n => caps.getD (n - 1) []

/-- The loop of `replace` with a global pattern: find the leftmost match at or
after the current position, emit the expansion, go on after the match (one
character further when the match is empty); characters that start no match
are copied. -/
def replaceAux (re : Pattern) (t : Template) : Nat → Option Char → List Char → List Char
  | 0, _, rest => rest
  | fuel + 1, prev, rest =>
    match matchItems re [] prev rest with
    | some (caps, prev', rest') =>
      if rest'.length < rest.length then
        expand t caps ++ replaceAux re t fuel prev' rest'
      else
        match rest with
        | [] => expand t caps
        | x :: xs => expand t caps ++ x :: replaceAux re t fuel (some x) xs
    | none =>
      match rest with
      | [] => []
      | x :: xs => x :: replaceAux re t fuel (some x) xs

/-- The method `s.replace(re, t)` for a pattern with the `g` flag. -/
def replaceAll (re : Pattern) (t : Template) (s : List Char) : List Char :=
  replaceAux re t (s.length + 1) none s

/-! ## `parseMarkdown` -/

/-- The backtick character. -/
def backtick : Char := Char.ofNat 96

/-- The pattern `/&/g`. -/
def reAmp : Pattern := [.chr '&']
/-- The pattern `/</g`. -/
def reLt : Pattern := [.chr '<']
/-- The pattern `/>/g`. -/
def reGt : Pattern := [.chr '>']
/-- The pattern `/^### (.+)$/gm`. -/
def reH3 : Pattern := [.bol, .chr '#', .chr '#', .chr '#', .chr ' ', .group true .dot, .eol]
/-- The pattern `/^## (.+)$/gm`. -/
def reH2 : Pattern := [.bol, .chr '#', .chr '#', .chr ' ', .group true .dot, .eol]
/-- The pattern `/^# (.+)$/gm`. -/
def reH1 : Pattern := [.bol, .chr '#', .chr ' ', .group true .dot, .eol]
/-- The pattern `/\*\*(.+?)\*\*/g`. -/
def reBoldStar : Pattern := [.chr '*', .chr '*', .group false .dot, .chr '*', .chr '*']
/-- The pattern `/__(.+?)__/g`. -/
def reBoldUnder : Pattern := [.chr '_', .chr '_', .group false .dot, .chr '_', .chr '_']
/-- The pattern `/\*(?!\*)(.+?)\*/g`. -/
def reItalicStar : Pattern := [.chr '*', .notAhead '*', .group false .dot, .chr '*']
/-- The pattern `/_(?!_)(.+?)_/g`. -/
def reItalicUnder : Pattern := [.chr '_', .notAhead '_', .group false .dot, .chr '_']
/-- The pattern for inline code: a backtick, `(.+?)`, a backtick. -/
def reCode : Pattern := [.chr backtick, .group false .dot, .chr backtick]
/-- The pattern `/\[([^\]]+)\]\(([^)]+)\)/g`. -/
def reLink : Pattern :=
  [.chr '[', .group true (.notChar ']'), .chr ']', .chr '(', .group true (.notChar ')'), .chr ')']
/-- The pattern `/\n/g`. -/
def reNewline : Pattern := [.chr '\n']

/-- A replacement of the form `open$1close`. -/
def wrapIn (o c : List Char) : Template := [.lit o, .cap 1, .lit c]

/-- The replacement `<h3>$1</h3>`. -/
def tH3 : Template := wrapIn "<h3>".toList "</h3>".toList
/-- The replacement `<h2>$1</h2>`. -/
def tH2 : Template := wrapIn "<h2>".toList "</h2>".toList
/-- The replacement `<h1>$1</h1>`. -/
def tH1 : Template := wrapIn "<h1>".toList "</h1>".toList
/-- The replacement `<strong>$1</strong>`. -/
def tStrong : Template := wrapIn "<strong>".toList "</strong>".toList
/-- The replacement `<em>$1</em>`. -/
def tEm : Template := wrapIn "<em>".toList "</em>".toList
/-- The replacement `<code>$1</code>`. -/
def tCode : Template := wrapIn "<code>".toList "</code>".toList

/-- The start of the anchor replacement, up to the url. -/
def anchorHead : List Char := "<a href=\"".toList

/-- The text between the url and the link text in the anchor replacement. -/
def anchorMid : List Char := "\" target=\"_blank\" rel=\"noopener noreferrer\">".toList

/-- The replacement `<a href="$2" target="_blank" rel="noopener noreferrer">$1</a>`. -/
def tLink : Template :=
  [.lit anchorHead, .cap 2, .lit anchorMid, .cap 1, .lit "</a>".toList]

/-- The escaping step: `&`, then `<`, then `>`. -/
def escapeHtml (text : List Char) : List Char :=
  replaceAll reGt [.lit "&gt;".toList]
    (replaceAll reLt [.lit "&lt;".toList]
      (replaceAll reAmp [.lit "&amp;".toList] text))

/-- The chain of markdown substitutions, in source order. -/
def markdownPasses (html : List Char) : List Char :=
  replaceAll reLink tLink
    (replaceAll reCode tCode
      (replaceAll reItalicUnder tEm
        (replaceAll reItalicStar tEm
          (replaceAll reBoldUnder tStrong
            (replaceAll reBoldStar tStrong
              (replaceAll reH1 tH1
                (replaceAll reH2 tH2
                  (replaceAll reH3 tH3 html))))))))

/-- The function `parseMarkdown(text)` for a string argument. -/
def parseMarkdown (text : List Char) : List Char :=
  if text = [] then []
  else replaceAll reNewline [.lit "<br>".toList] (markdownPasses (escapeHtml text))


/-! ## Output grammar -/

/-- The characters that need no escaping. -/
def isPlain (c : Char) : Bool := c != '<' && c != '>' && c != '&'

/-- The three entities written by the escaping step. -/
def entities : List (List Char) := ["&amp;".toList, "&lt;".toList, "&gt;".toList]

/-- The tags without attributes that the replacement strings contain. -/
def fixedTags : List (List Char) :=
  ["<h1>".toList, "</h1>".toList, "<h2>".toList, "</h2>".toList, "<h3>".toList, "</h3>".toList,
   "<strong>".toList, "</strong>".toList, "<em>".toList, "</em>".toList,
   "<code>".toList, "</code>".toList, "</a>".toList, "<br>".toList]

/-- The anchor opening tag around the url `u`. -/
def anchorOpen (u : List Char) : List Char := anchorHead ++ u ++ anchorMid

/-- Text made of plain characters, entities and attribute-free tags. -/
inductive Good : List Char → Prop where
  | nil : Good []
  | plain (c : Char) (s : List Char) : isPlain c = true → Good s → Good (c :: s)
  | token (t s : List Char) : t ∈ entities ++ fixedTags → Good s → Good (t ++ s)

/-- Text made of plain characters, entities, attribute-free tags and anchor
opening tags whose url part is `Good`. -/
inductive Rendered : List Char → Prop where
  | nil : Rendered []
  | plain (c : Char) (s : List Char) : isPlain c = true → Rendered s → Rendered (c :: s)
  | token (t s : List Char) : t ∈ entities ++ fixedTags → Rendered s → Rendered (t ++ s)
  | anchor (u s : List Char) : Good u → Rendered s → Rendered (anchorOpen u ++ s)

/-- A character that is plain and occurs in no entity and no attribute-free tag. -/
def isDelim (c : Char) : Bool :=
  isPlain c && (entities ++ fixedTags).all fun t => !t.contains c

/-- A tag that the renderer generates: an attribute-free one or an anchor
opening tag. -/
def GeneratedTag (t : List Char) : Prop :=
  t ∈ fixedTags ∨ ∃ u, Good u ∧ t = anchorOpen u

/-! ## Closed forms of the single-character passes -/

/-- What the escaping step writes for one character. -/
def escapeChar (c : Char) : List Char :=
  if c = '&' then "&amp;".toList
  else if c = '<' then "&lt;".toList
  else if c = '>' then "&gt;".toList
  else [c]

/-- What the last pass writes for one character. -/
def brChar (c : Char) : List Char := if c = '\n' then "<br>".toList else [c]

/-! ## Predicates on input text -/

/-- Does some line of the text begin with `#`; a line begins at the start of
the text and after each line terminator (`prev` is the character before the
text). -/
def hashAtLineStart : Option Char → List Char → Bool
  | _, [] => false
  | prev, x :: xs => (atLineStart prev && x == '#') || hashAtLineStart (some x) xs

/-- Is every `<` of the text directly followed by `b` (as in `<br>`). -/
def ltOnlyBr : List Char → Bool
  | [] => true
  | c :: rest => (c != '<' || rest.head? == some 'b') && ltOnlyBr rest

/-- Already escaped text: every `&` starts one of `&amp;`, `&lt;`, `&gt;` and
there is no `<` or `>`. -/
def isEscaped : List Char → Bool
  | [] => true
  | c :: rest =>
    (if c = '&' then
      "amp;".toList.isPrefixOf rest || "lt;".toList.isPrefixOf rest
        || "gt;".toList.isPrefixOf rest
     else c != '<' && c != '>') && isEscaped rest

/-- Text without markdown tokens: no `#` at a line start and none of the
characters `*`, `_`, backtick, `[`, `]`. -/
def noMarkdownToken (s : List Char) : Bool :=
  !hashAtLineStart none s &&
    s.all fun c => c != '*' && c != '_' && c != backtick && c != '[' && c != ']'

/-- The replacement of `&` by `&amp;`, character by character. -/
def ampChar (c : Char) : List Char := if c = '&' then "&amp;".toList else [c]

/-! ## The claim about anchors -/

/-- Every anchor opening tag of the text has exactly the form
`<a href="U" target="_blank" rel="noopener noreferrer">` with a url part `U`
that contains no double quote. -/
def AnchorsWellFormed (out : List Char) : Prop :=
  ∀ pre post, out = pre ++ anchorHead ++ post →
    ∃ u rest, '"' ∉ u ∧ post = u ++ anchorMid ++ rest

/-! ## The widget state -/

/-- Elements in document order, as first child and next sibling: what the
page or the HTML parser built. Of each element the class list is kept. -/
inductive Forest where
  | nil : Forest
  | cons (classes : List String) (children : Forest) (siblings : Forest) : Forest
deriving DecidableEq, Repr

/-- The first element of the forest, in document order, that has the class:
its class list and its children. -/
def Forest.find (cls : String) : Forest → Option (List String × Forest)
  | .nil => none
  | .cons classes children siblings =>
    if classes.contains cls then some (classes, children)
    else
      match children.find cls with
      | some r => some r
      | none => siblings.find cls

/-- What the script assigned to an element: `textContent` or `innerHTML`;
`given` for an element that the page or the HTML parser built. -/
inductive Content where
  | text (s : List Char) : Content
  | html (s : List Char) : Content
  | given : Content
deriving DecidableEq, Repr

/-- A child of the messages container: its class list, its content, its
element children, and the number of the timer whose callback holds a
reference to it (only the node shown after a clear has one). -/
structure Node where
  classes : List String
  content : Content
  children : Forest
  ref : Option Nat
deriving DecidableEq, Repr

/-- The inline `style.display` of an element; `unset` until the script assigns it. -/
inductive Display where
  | unset : Display
  | flex : Display
  | none : Display
deriving DecidableEq, Repr

/-- The keys of `API_ENDPOINTS`. -/
inductive Endpoint where
  | send : Endpoint
  | history : Endpoint
  | clear : Endpoint
deriving DecidableEq, Repr

/-- The url of an endpoint. -/
def Endpoint.url : Endpoint → String
  | .send => "/finance/chatbot/send/"
  | .history => "/finance/chatbot/history/"
  | .clear => "/finance/chatbot/clear/"

/-- A call of `fetch`: endpoint, method, the `X-CSRFToken` header and, for the
send endpoint, the `message` field of the JSON body. -/
structure Request where
  endpoint : Endpoint
  method : String
  csrfToken : List Char
  message : Option (List Char)
deriving DecidableEq, Repr

/-- A callback scheduled with `setTimeout`: a scroll, or the removal of the
node that carries the number `ref`. -/
inductive Timer where
  | scroll : Timer
  | removeNode (ref : Nat) : Timer
deriving DecidableEq, Repr

/-- The state the script reads and writes: its two variables, the DOM
properties it touches, the cookie string, the logs of `fetch` calls,
`setTimeout` calls and `console.error` calls, and the number for the next node
that a timer refers to. -/
structure Widget where
  isOpen : Bool
  isProcessing : Bool
  messages : List Node
  sendDisabled : Bool
  inputDisabled : Bool
  inputValue : List Char
  inputFocused : Bool
  typingDisplay : Display
  windowDisplay : Display
  cookie : List Char
  requests : List Request
  timers : List Timer
  consoleErrors : List String
  nextRef : Nat
deriving DecidableEq, Repr

/-- The browser's HTML parser, which is not part of the script: the elements
that assigning a string to `innerHTML` builds. The functions below take it as
their first argument. -/
abbrev HtmlParser := List Char → Forest

/-- The outcome of `await fetch(...)` followed by `await response.json()`:
`fetch` rejects, the body is not JSON, or the body decodes to `data`. -/
inductive Outcome (α : Type) where
  | fetchRejected : Outcome α
  | notJson : Outcome α
  | json (data : α) : Outcome α

/-- The body of a send response, `{success, response?, error?}`. -/
structure SendData where
  success : Bool
  response : Option (List Char)
  error : Option (List Char)

/-- An entry of a history response, `{role, content}`. -/
structure HistoryEntry where
  role : List Char
  content : List Char

/-- The body of a history response, `{success, conversation?}`. -/
structure HistoryData where
  success : Bool
  conversation : Option (List HistoryEntry)

/-- The body of a clear response, `{success}`. -/
structure ClearData where
  success : Bool

/-! ## Helpers of the script -/

/-- Split at each occurrence of `"; "`, as `split('; ')` does. -/
def splitSemicolonSpace : List Char → List (List Char)
  | [] => [[]]
  | ';' :: ' ' :: rest => [] :: splitSemicolonSpace rest
  | c :: rest =>
    match splitSemicolonSpace rest with
    | [] => [[c]]
    | h :: t => (c :: h) :: t

/-- Split at each `=`, as `split('=')` does. -/
def splitEquals : List Char → List (List Char)
  | [] => [[]]
  | c :: rest =>
    if c = '=' then [] :: splitEquals rest
    else
      match splitEquals rest with
      | [] => [[c]]
      | h :: t => (c :: h) :: t

/-- The function `getCsrfToken()` on the cookie string. -/
def getCsrfToken (cookie : List Char) : List Char :=
  match (splitSemicolonSpace cookie).find? (fun row => "csrftoken=".toList.isPrefixOf row) with
  | some csrfCookie => (splitEquals csrfCookie).getD 1 []
  | none => []

/-- The characters removed by `trim()`: white space and line terminators. -/
def isTrimmed (c : Char) : Bool :=
  c.toNat == 0x9 || c.toNat == 0xA || c.toNat == 0xB || c.toNat == 0xC || c.toNat == 0xD
    || c.toNat == 0x20 || c.toNat == 0xA0 || c.toNat == 0x1680
    || (0x2000 ≤ c.toNat && c.toNat ≤ 0x200A)
    || c.toNat == 0x2028 || c.toNat == 0x2029 || c.toNat == 0x202F || c.toNat == 0x205F
    || c.toNat == 0x3000 || c.toNat == 0xFEFF

/-- The method `trim()`. -/
def trim (s : List Char) : List Char :=
  ((s.dropWhile isTrimmed).reverse.dropWhile isTrimmed).reverse

/-- The function `scrollToBottom()`: schedules the scroll. -/
def scrollToBottom (w : Widget) : Widget :=
  { w with timers := w.timers ++ [.scroll] }

/-- The call `chatInput.focus()`: a disabled input does not take the focus.
Whether the input is rendered at that moment is not part of the state. -/
def focusInput (w : Widget) : Widget :=
  if w.inputDisabled then w else { w with inputFocused := true }

/-- The node that `addMessage(content, role)` creates; `none` stands for an
undefined `content`. Assigning `innerHTML` runs the HTML parser, assigning
`textContent` builds no element. -/
def messageNode (parseHtml : HtmlParser) (content : Option (List Char)) (role : List Char) :
    Node :=
  { classes := ["chatbot-message",
      if role = "user".toList then "chatbot-message-user" else "chatbot-message-assistant"]
    content :=
      if role = "assistant".toList then
        .html (match content with
          | none => []
          | some text => parseMarkdown text)
      else .text (content.getD [])
    children :=
      if role = "assistant".toList then
        parseHtml (match content with
          | none => []
          | some text => parseMarkdown text)
      else .nil
    ref := none }

/-- The function `addMessage(content, role)`. -/
def addMessage (parseHtml : HtmlParser) (content : Option (List Char)) (role : List Char)
    (w : Widget) : Widget :=
  scrollToBottom { w with messages := w.messages ++ [messageNode parseHtml content role] }

/-- The warning sign and the blank that start every error text. -/
def warningPrefix : List Char := "⚠️ ".toList

/-- The node that `addErrorMessage(errorText)` creates. -/
def errorNode (errorText : List Char) : Node :=
  { classes := ["chatbot-error-message"], content := .text (warningPrefix ++ errorText),
    children := .nil, ref := none }

/-- The function `addErrorMessage(errorText)`. -/
def addErrorMessage (errorText : List Char) (w : Widget) : Widget :=
  scrollToBottom { w with messages := w.messages ++ [errorNode errorText] }

/-- The function `setTypingIndicator(show)`. -/
def setTypingIndicator (visible : Bool) (w : Widget) : Widget :=
  let w1 := { w with typingDisplay := if visible then .flex else .none }
  if visible then scrollToBottom w1 else w1

/-- The call `fetch(url, ...)`: the request is recorded. -/
def dispatch (e : Endpoint) (method : String) (message : Option (List Char)) (w : Widget) :
    Widget :=
  { w with requests := w.requests ++
      [{ endpoint := e, method := method, csrfToken := getCsrfToken w.cookie,
         message := message }] }

/-- The call `console.error(label, error)`. -/
def consoleError (label : String) (w : Widget) : Widget :=
  { w with consoleErrors := w.consoleErrors ++ [label] }

/-- The method `querySelector` on the messages container for a class selector: the first
descendant with the class in document order, so each child comes before its
own descendants and those before the next child. -/
def querySelector (cls : String) : List Node → Option Node
  | [] => none
  | n :: ns =>
    if n.classes.contains cls then some n
    else
      match n.children.find cls with
      | some (classes, children) =>
        some { classes := classes, content := .given, children := children, ref := none }
      | none => querySelector cls ns

/-- The result of `messagesContainer.querySelector('.chatbot-welcome-message')`. -/
def welcomeMsg (w : Widget) : Option Node :=
  querySelector "chatbot-welcome-message" w.messages

/-- The statements `innerHTML = ''` and `if (welcomeMsg) appendChild(welcomeMsg)`. -/
def clearExceptWelcome (w : Widget) : Widget :=
  { w with messages := (welcomeMsg w).toList }

/-! ## `sendMessage` -/

/-- The guard of `sendMessage`: `!message.trim() || isProcessing`. -/
def sendRejected (message : List Char) (w : Widget) : Bool :=
  (trim message).isEmpty || w.isProcessing

/-- The function `sendMessage(message)` up to its first `await`: the call returns at the
guard, or it sets the busy state, adds the user message, empties the input,
shows the typing indicator and calls `fetch`. -/
def sendMessageBegin (parseHtml : HtmlParser) (message : List Char) (w : Widget) : Widget :=
  if sendRejected message w then w
  else
    let w1 := { w with isProcessing := true, sendDisabled := true, inputDisabled := true }
    let w2 := addMessage parseHtml (some message) "user".toList w1
    let w3 := { w2 with inputValue := [] }
    let w4 := setTypingIndicator true w3
    dispatch .send "POST" (some message) w4

/-- The `finally` block of `sendMessage`. -/
def sendFinally (w : Widget) : Widget :=
  focusInput { w with isProcessing := false, sendDisabled := false, inputDisabled := false }

/-- The rest of `sendMessage` once the request has an outcome: the `try`
body after the `await`s or the `catch` block, then the `finally` block. -/
def sendMessageResume (parseHtml : HtmlParser) (o : Outcome SendData) (w : Widget) : Widget :=
  match o with
  | .json data =>
    let w1 := setTypingIndicator false w
    let w2 :=
      if data.success then addMessage parseHtml data.response "assistant".toList w1
      else
        addErrorMessage
          (match data.error with
            | some e => if e = [] then "Failed to get response. Please try again.".toList else e
            | none => "Failed to get response. Please try again.".toList) w1
    sendFinally w2
  | _ =>
    let w1 := consoleError "Error sending message:" w
    let w2 := setTypingIndicator false w1
    let w3 := addErrorMessage
      "Network error. Please check your connection and try again.".toList w2
    sendFinally w3

/-- A whole run of `sendMessage(message)` with nothing else in between. -/
def sendMessage (parseHtml : HtmlParser) (message : List Char) (o : Outcome SendData)
    (w : Widget) : Widget :=
  if sendRejected message w then w
  else sendMessageResume parseHtml o (sendMessageBegin parseHtml message w)

/-! ## `loadConversationHistory` -/

/-- The function `loadConversationHistory()` up to its first `await`. -/
def loadConversationHistoryBegin (w : Widget) : Widget :=
  dispatch .history "GET" none w

/-- The condition `data.success && data.conversation && data.conversation.length > 0`. -/
def historyUsable (data : HistoryData) : Bool :=
  data.success && (match data.conversation with
    | some c => !c.isEmpty
    | none => false)

/-- The rest of `loadConversationHistory` once the request has an outcome. -/
def loadConversationHistoryResume (parseHtml : HtmlParser) (o : Outcome HistoryData)
    (w : Widget) : Widget :=
  match o with
  | .json data =>
    if historyUsable data then
      (data.conversation.getD []).foldl
        (fun acc msg => addMessage parseHtml (some msg.content) msg.role acc)
        (clearExceptWelcome w)
    else w
  | _ => consoleError "Error loading conversation history:" w

/-- A whole run of `loadConversationHistory()` with nothing else in between. -/
def loadConversationHistory (parseHtml : HtmlParser) (o : Outcome HistoryData) (w : Widget) :
    Widget :=
  loadConversationHistoryResume parseHtml o (loadConversationHistoryBegin w)

/-! ## `clearConversation` -/

/-- The node shown after a successful clear; `ref` is the number of the timer
that will remove it. -/
def successNode (ref : Nat) : Node :=
  { classes := ["chatbot-message-assistant"],
    content := .text "✅ Conversation cleared successfully!".toList,
    children := .nil, ref := some ref }

/-- The function `clearConversation()` up to its first `await`; `confirmed` is what
`confirm(...)` returned. -/
def clearConversationBegin (confirmed : Bool) (w : Widget) : Widget :=
  if !confirmed then w else dispatch .clear "POST" none w

/-- The rest of `clearConversation` once the request has an outcome. -/
def clearConversationResume (o : Outcome ClearData) (w : Widget) : Widget :=
  match o with
  | .json data =>
    if data.success then
      let w1 := clearExceptWelcome w
      { w1 with messages := w1.messages ++ [successNode w1.nextRef],
                timers := w1.timers ++ [.removeNode w1.nextRef],
                nextRef := w1.nextRef + 1 }
    else addErrorMessage "Failed to clear conversation.".toList w
  | _ =>
    addErrorMessage "Failed to clear conversation.".toList
      (consoleError "Error clearing conversation:" w)

/-- A whole run of `clearConversation()` with nothing else in between. -/
def clearConversation (confirmed : Bool) (o : Outcome ClearData) (w : Widget) : Widget :=
  if !confirmed then w else clearConversationResume o (clearConversationBegin confirmed w)

/-! ## `toggleChat` and the event handlers -/

/-- The function `toggleChat()`, up to the `await` inside `loadConversationHistory`. -/
def toggleChat (w : Widget) : Widget :=
  let w1 := { w with isOpen := !w.isOpen,
                     windowDisplay := if !w.isOpen then .flex else .none }
  if w1.isOpen then loadConversationHistoryBegin (focusInput w1) else w1

/-- The `submit` handler of the form, up to the `await` inside `sendMessage`. -/
def onSubmit (parseHtml : HtmlParser) (w : Widget) : Widget :=
  let message := trim w.inputValue
  if message.isEmpty then w else sendMessageBegin parseHtml message w

/-- What can run while a send request is outstanding: the handlers of the
script, the continuations of the other two requests, the user editing the
input, and the timers. -/
inductive Event where
  | toggle : Event
  | submit : Event
  | sendCall (message : List Char) : Event
  | historyDone (o : Outcome HistoryData) : Event
  | clearCall (confirmed : Bool) : Event
  | clearDone (o : Outcome ClearData) : Event
  | typeInput (value : List Char) : Event
  | timerFired (k : Nat) : Event

/-- The user edits the input field. -/
def editInput (value : List Char) (w : Widget) : Widget :=
  { w with inputValue := value }

/-- The callback of pending timer number `k` runs. A scroll changes nothing that
is part of the state. `successDiv.remove()` takes the element the callback refers
to out of the container when it is still a child of it, and does nothing when
the element has been detached in the meantime. -/
def fireTimer (k : Nat) (w : Widget) : Widget :=
  match w.timers.get? k with
  | none => w
  | some .scroll => { w with timers := w.timers.eraseIdx k }
  | some (.removeNode r) =>
    { w with timers := w.timers.eraseIdx k,
             messages := w.messages.filter fun n => n.ref != some r }

/-- The effect of an event. -/
def Event.apply (parseHtml : HtmlParser) : Event → Widget → Widget
  | .toggle, w => toggleChat w
  | .submit, w => onSubmit parseHtml w
  | .sendCall m, w => sendMessageBegin parseHtml m w
  | .historyDone o, w => loadConversationHistoryResume parseHtml o w
  | .clearCall b, w => clearConversationBegin b w
  | .clearDone o, w => clearConversationResume o w
  | .typeInput v, w => editInput v w
  | .timerFired k, w => fireTimer k w

/-- The effect of a sequence of events. -/
def runEvents (parseHtml : HtmlParser) (es : List Event) (w : Widget) : Widget :=
  es.foldl (fun acc e => e.apply parseHtml acc) w

/-- The busy state: the flag is set and both controls are disabled. -/
def Busy (w : Widget) : Prop :=
  w.isProcessing = true ∧ w.sendDisabled = true ∧ w.inputDisabled = true

/-! ## Sample states and expected values -/

/-- A welcome banner of the page. -/
def welcomeNode : Node :=
  { classes := ["chatbot-welcome-message"], content := .given, children := .nil, ref := none }

/-- The widget right after the script has run on a page whose messages
container holds a welcome banner. -/
def freshWidget : Widget :=
  { isOpen := false, isProcessing := false, messages := [welcomeNode],
    sendDisabled := false, inputDisabled := false, inputValue := [], inputFocused := false,
    typingDisplay := .unset, windowDisplay := .unset, cookie := "csrftoken=abc".toList,
    requests := [], timers := [], consoleErrors := [], nextRef := 0 }

/-- The widget right after the script has run on a page whose messages
container is empty. -/
def bareWidget : Widget := { freshWidget with messages := [] }

/-- A link whose url carries a double quote and a `class` attribute. -/
def injectedMessage : List Char := "[a](x\" class=\"chatbot-welcome-message)".toList

/-- The HTML of an anchor whose url carries a `class` attribute. -/
def injectedAnchorHtml : List Char :=
  "<a href=\"x\" class=\"chatbot-welcome-message\" target=\"_blank\" rel=\"noopener noreferrer\">a</a>".toList

/-- The anchor element that the HTML parser builds from `injectedAnchorHtml`. -/
def injectedAnchor : Forest := .cons ["chatbot-welcome-message"] .nil .nil

/-- A stand-in for the HTML parser on the strings of the examples: one
element without classes for `<strong>hi</strong>` and for `<strong>yo</strong>`, the anchor
with its class for `injectedAnchorHtml`, no element otherwise. -/
def sampleParser : HtmlParser := fun s =>
  if s = injectedAnchorHtml then injectedAnchor
  else if s = "<strong>hi</strong>".toList ∨ s = "<strong>yo</strong>".toList then .cons [] .nil .nil
  else .nil

/-- The user node for the text `m`. -/
def userNode (m : List Char) : Node :=
  { classes := ["chatbot-message", "chatbot-message-user"], content := .text m,
    children := .nil, ref := none }

/-- The assistant node with the HTML `h`, whose element children are what the
HTML parser builds from `h`. -/
def assistantNode (parseHtml : HtmlParser) (h : List Char) : Node :=
  { classes := ["chatbot-message", "chatbot-message-assistant"], content := .html h,
    children := parseHtml h, ref := none }

/-- The request that `sendMessage(message)` dispatches in state `w`. -/
def sendRequest (message : List Char) (w : Widget) : Request :=
  { endpoint := .send, method := "POST", csrfToken := getCsrfToken w.cookie,
    message := some message }

/-- The request that `clearConversation()` dispatches in state `w`. -/
def clearRequest (w : Widget) : Request :=
  { endpoint := .clear, method := "POST", csrfToken := getCsrfToken w.cookie, message := none }

/-- The number of requests to the clear endpoint so far. -/
def clearRequests (w : Widget) : Nat :=
  (w.requests.filter fun r => r.endpoint = .clear).length

/-- The fallback text for a failed response without error text. -/
def genericFailure : List Char := "Failed to get response. Please try again.".toList

/-- The text for a request that raised. -/
def networkFailure : List Char :=
  "Network error. Please check your connection and try again.".toList

end Chatbot

open Chatbot

/-! # Lemmas -/

namespace Chatbot

/-! ## The matcher -/

theorem plusLoop_sound {g : Bool} {cls : Char → Bool}
    {k : List Char → Option Char → List Char → Option MatchResult} :
    ∀ (rest acc : List Char) (r : MatchResult), plusLoop g cls k acc rest = some r →
      ∃ front x rest', rest = front ++ x :: rest' ∧ (∀ c ∈ front, cls c = true) ∧ cls x = true ∧
        k (acc ++ (front ++ [x])) (some x) rest' = some r := by
  intro rest
  induction rest with
  | nil => intro acc r h; simp [plusLoop] at h
  | cons x xs ih =>
    intro acc r h
    unfold plusLoop at h
    by_cases hx : cls x = true
    · simp only [hx, if_true] at h
      have key : plusLoop g cls k (acc ++ [x]) xs = some r ∨ k (acc ++ [x]) (some x) xs = some r := by
        cases g
        · simp only [Bool.false_eq_true, if_false] at h
          cases hk : k (acc ++ [x]) (some x) xs with
          | none => rw [hk] at h; left; simpa [Option.orElse] using h
          | some v => rw [hk] at h; right; simpa [Option.orElse] using h
        · simp only [if_true] at h
          cases hk : plusLoop true cls k (acc ++ [x]) xs with
          | none => rw [hk] at h; right; simpa [Option.orElse] using h
          | some v => rw [hk] at h; left; simpa [Option.orElse] using h
      rcases key with h1 | h1
      · obtain ⟨front, y, rest', hxs, hf, hy, hk⟩ := ih _ _ h1
        refine ⟨x :: front, y, rest', by simp [hxs], ?_, hy, ?_⟩
        · intro c hc
          rcases List.mem_cons.mp hc with rfl | hc
          · exact hx
          · exact hf c hc
        · simpa [List.append_assoc] using hk
      · exact ⟨[], x, xs, by simp, by simp, hx, by simpa using h1⟩
    · simp [hx] at h

theorem matchItems_nil {caps prev rest} {r : MatchResult} :
    matchItems [] caps prev rest = some r ↔ r = (caps, prev, rest) := by
  simp [matchItems, eq_comm]

theorem matchItems_chr {c : Char} {is caps prev rest} {r : MatchResult} :
    matchItems (.chr c :: is) caps prev rest = some r ↔
      ∃ xs, rest = c :: xs ∧ matchItems is caps (some c) xs = some r := by
  cases rest with
  | nil => simp [matchItems]
  | cons x xs =>
    by_cases h : x = c
    · subst h; simp [matchItems]
    · simp [matchItems, h]

theorem matchItems_bol {is caps prev rest} {r : MatchResult} :
    matchItems (.bol :: is) caps prev rest = some r ↔
      atLineStart prev = true ∧ matchItems is caps prev rest = some r := by
  by_cases h : atLineStart prev = true <;> simp [matchItems, h]

theorem matchItems_eol {is caps prev rest} {r : MatchResult} :
    matchItems (.eol :: is) caps prev rest = some r ↔
      atLineEnd rest = true ∧ matchItems is caps prev rest = some r := by
  by_cases h : atLineEnd rest = true <;> simp [matchItems, h]

theorem matchItems_notAhead {c : Char} {is caps prev rest} {r : MatchResult} :
    matchItems (.notAhead c :: is) caps prev rest = some r ↔
      rest.head? ≠ some c ∧ matchItems is caps prev rest = some r := by
  by_cases h : rest.head? = some c <;> simp [matchItems, h]

theorem matchItems_group {g : Bool} {cls : CharClass} {is caps prev rest} {r : MatchResult}
    (h : matchItems (.group g cls :: is) caps prev rest = some r) :
    ∃ front x rest', rest = front ++ x :: rest' ∧ (∀ c ∈ front, cls.test c = true) ∧
      cls.test x = true ∧ matchItems is (caps ++ [front ++ [x]]) (some x) rest' = some r := by
  simp only [matchItems] at h
  obtain ⟨front, x, rest', h1, h2, h3, h4⟩ := plusLoop_sound _ _ _ h
  exact ⟨front, x, rest', h1, h2, h3, by simpa using h4⟩


/-! ## The shape of a match, pattern by pattern -/

theorem reHeader_shape {is : Pattern}
    (his : is = [.group true .dot, .eol]) {prev rest caps p' rest'}
    (h : matchItems is [] prev rest = some (caps, p', rest')) :
    ∃ cap, rest = cap ++ rest' ∧ caps = [cap] ∧ cap ≠ [] ∧
      (∀ c ∈ cap, isLineTerminator c = false) ∧ atLineEnd rest' = true := by
  subst his
  obtain ⟨front, x, r1, h1, h2, h3, h4⟩ := matchItems_group h
  rw [matchItems_eol, matchItems_nil] at h4
  obtain ⟨h5, h6⟩ := h4
  simp only [Prod.mk.injEq, List.nil_append] at h6
  obtain ⟨rfl, -, rfl⟩ := h6
  refine ⟨front ++ [x], by simp [h1], rfl, by simp, ?_, h5⟩
  intro c hc
  rcases List.mem_append.mp hc with hc | hc
  · simpa [CharClass.test] using h2 c hc
  · simp only [List.mem_singleton] at hc
    subst hc
    simpa [CharClass.test] using h3

theorem reH3_shape {prev rest caps p' rest'}
    (h : matchItems reH3 [] prev rest = some (caps, p', rest')) :
    ∃ cap, rest = '#' :: '#' :: '#' :: ' ' :: (cap ++ rest') ∧ caps = [cap] ∧ cap ≠ [] ∧
      (∀ c ∈ cap, isLineTerminator c = false) ∧ atLineEnd rest' = true ∧
      atLineStart prev = true := by
  simp only [reH3, matchItems_bol, matchItems_chr] at h
  obtain ⟨hb, x1, rfl, x2, rfl, x3, rfl, x4, rfl, h⟩ := h
  obtain ⟨cap, rfl, h2, h3, h4, h5⟩ := reHeader_shape rfl h
  exact ⟨cap, rfl, h2, h3, h4, h5, hb⟩

theorem reH2_shape {prev rest caps p' rest'}
    (h : matchItems reH2 [] prev rest = some (caps, p', rest')) :
    ∃ cap, rest = '#' :: '#' :: ' ' :: (cap ++ rest') ∧ caps = [cap] ∧ cap ≠ [] ∧
      (∀ c ∈ cap, isLineTerminator c = false) ∧ atLineEnd rest' = true ∧
      atLineStart prev = true := by
  simp only [reH2, matchItems_bol, matchItems_chr] at h
  obtain ⟨hb, x1, rfl, x2, rfl, x3, rfl, h⟩ := h
  obtain ⟨cap, rfl, h2, h3, h4, h5⟩ := reHeader_shape rfl h
  exact ⟨cap, rfl, h2, h3, h4, h5, hb⟩

theorem reH1_shape {prev rest caps p' rest'}
    (h : matchItems reH1 [] prev rest = some (caps, p', rest')) :
    ∃ cap, rest = '#' :: ' ' :: (cap ++ rest') ∧ caps = [cap] ∧ cap ≠ [] ∧
      (∀ c ∈ cap, isLineTerminator c = false) ∧ atLineEnd rest' = true ∧
      atLineStart prev = true := by
  simp only [reH1, matchItems_bol, matchItems_chr] at h
  obtain ⟨hb, x1, rfl, x2, rfl, h⟩ := h
  obtain ⟨cap, rfl, h2, h3, h4, h5⟩ := reHeader_shape rfl h
  exact ⟨cap, rfl, h2, h3, h4, h5, hb⟩

/-- The shape of a match of `d d (.+?) d d`. -/
theorem reBold_shape {d : Char} {prev rest caps p' rest'}
    (h : matchItems [.chr d, .chr d, .group false .dot, .chr d, .chr d] [] prev rest
      = some (caps, p', rest')) :
    ∃ cap, rest = d :: d :: (cap ++ d :: d :: rest') ∧ caps = [cap] ∧ cap ≠ [] ∧
      (∀ c ∈ cap, isLineTerminator c = false) := by
  simp only [matchItems_chr] at h
  obtain ⟨x1, rfl, x2, rfl, h⟩ := h
  obtain ⟨front, x, r1, rfl, h2, h3, h4⟩ := matchItems_group h
  simp only [matchItems_chr, matchItems_nil] at h4
  obtain ⟨y1, rfl, y2, rfl, h6⟩ := h4
  simp only [Prod.mk.injEq, List.nil_append] at h6
  obtain ⟨rfl, -, rfl⟩ := h6
  refine ⟨front ++ [x], by simp, rfl, by simp, ?_⟩
  intro c hc
  rcases List.mem_append.mp hc with hc | hc
  · simpa [CharClass.test] using h2 c hc
  · simp only [List.mem_singleton] at hc
    subst hc
    simpa [CharClass.test] using h3

/-- The shape of a match of `d (?!d) (.+?) d`. -/
theorem reItalic_shape {d : Char} {prev rest caps p' rest'}
    (h : matchItems [.chr d, .notAhead d, .group false .dot, .chr d] [] prev rest
      = some (caps, p', rest')) :
    ∃ cap, rest = d :: (cap ++ d :: rest') ∧ caps = [cap] ∧ cap ≠ [] ∧
      (∀ c ∈ cap, isLineTerminator c = false) ∧ cap.head? ≠ some d := by
  simp only [matchItems_chr, matchItems_notAhead] at h
  obtain ⟨x1, rfl, hna, h⟩ := h
  obtain ⟨front, x, r1, rfl, h2, h3, h4⟩ := matchItems_group h
  simp only [matchItems_chr, matchItems_nil] at h4
  obtain ⟨y1, rfl, h6⟩ := h4
  simp only [Prod.mk.injEq, List.nil_append] at h6
  obtain ⟨rfl, -, rfl⟩ := h6
  refine ⟨front ++ [x], by simp, rfl, by simp, ?_, ?_⟩
  · intro c hc
    rcases List.mem_append.mp hc with hc | hc
    · simpa [CharClass.test] using h2 c hc
    · simp only [List.mem_singleton] at hc
      subst hc
      simpa [CharClass.test] using h3
  · cases front <;> simpa using hna

theorem reCode_shape {prev rest caps p' rest'}
    (h : matchItems reCode [] prev rest = some (caps, p', rest')) :
    ∃ cap, rest = backtick :: (cap ++ backtick :: rest') ∧ caps = [cap] ∧ cap ≠ [] ∧
      (∀ c ∈ cap, isLineTerminator c = false) := by
  simp only [reCode, matchItems_chr] at h
  obtain ⟨x1, rfl, h⟩ := h
  obtain ⟨front, x, r1, rfl, h2, h3, h4⟩ := matchItems_group h
  simp only [matchItems_chr, matchItems_nil] at h4
  obtain ⟨y1, rfl, h6⟩ := h4
  simp only [Prod.mk.injEq, List.nil_append] at h6
  obtain ⟨rfl, -, rfl⟩ := h6
  refine ⟨front ++ [x], by simp, rfl, by simp, ?_⟩
  intro c hc
  rcases List.mem_append.mp hc with hc | hc
  · simpa [CharClass.test] using h2 c hc
  · simp only [List.mem_singleton] at hc
    subst hc
    simpa [CharClass.test] using h3

theorem reLink_shape {prev rest caps p' rest'}
    (h : matchItems reLink [] prev rest = some (caps, p', rest')) :
    ∃ txt url, rest = '[' :: (txt ++ ']' :: '(' :: (url ++ ')' :: rest')) ∧ caps = [txt, url] ∧
      txt ≠ [] ∧ url ≠ [] ∧ ']' ∉ txt ∧ ')' ∉ url := by
  simp only [reLink, matchItems_chr] at h
  obtain ⟨x1, rfl, h⟩ := h
  obtain ⟨f1, y1, r1, rfl, h2, h3, h4⟩ := matchItems_group h
  simp only [matchItems_chr] at h4
  obtain ⟨z1, rfl, z2, rfl, h4⟩ := h4
  obtain ⟨f2, y2, r2, rfl, k2, k3, k4⟩ := matchItems_group h4
  simp only [matchItems_chr, matchItems_nil] at k4
  obtain ⟨w1, rfl, h6⟩ := k4
  simp only [Prod.mk.injEq, List.nil_append] at h6
  obtain ⟨rfl, -, rfl⟩ := h6
  refine ⟨f1 ++ [y1], f2 ++ [y2], by simp, by simp, by simp, by simp, ?_, ?_⟩
  · intro hc
    rcases List.mem_append.mp hc with hc | hc
    · simpa [CharClass.test] using h2 _ hc
    · simp only [List.mem_singleton] at hc
      subst hc
      simp [CharClass.test] at h3
  · intro hc
    rcases List.mem_append.mp hc with hc | hc
    · simpa [CharClass.test] using k2 _ hc
    · simp only [List.mem_singleton] at hc
      subst hc
      simp [CharClass.test] at k3


/-! ## The loop of `replace` -/

/-- A pass maps `G` text to `R` text when each single match does. -/
theorem replaceAux_preserves {G R : List Char → Prop} {re : Pattern} {t : Template}
    (hGR : ∀ s, G s → R s) (hRapp : ∀ a b, R a → R b → R (a ++ b))
    (hmatch : ∀ prev rest caps p' rest', matchItems re [] prev rest = some (caps, p', rest') →
      rest'.length < rest.length ∧ ∀ acc, G (acc ++ rest) → G acc ∧ R (expand t caps) ∧ G rest') :
    ∀ (fuel : Nat) (prev : Option Char) (rest acc pre : List Char), G (acc ++ rest) →
      (∀ tail, G (acc ++ tail) → R (pre ++ tail)) → R (pre ++ replaceAux re t fuel prev rest) := by
  intro fuel
  induction fuel with
  | zero => intro prev rest acc pre hG hpre; simpa [replaceAux] using hpre rest hG
  | succ n ih =>
    intro prev rest acc pre hG hpre
    unfold replaceAux
    cases hm : matchItems re [] prev rest with
    | none =>
      cases rest with
      | nil => simpa using hpre [] hG
      | cons x xs =>
        simp only
        have := ih (some x) xs (acc ++ [x]) (pre ++ [x]) (by simpa using hG)
          (fun tail ht => by simpa using hpre (x :: tail) (by simpa using ht))
        simpa using this
    | some v =>
      obtain ⟨caps, p', rest'⟩ := v
      obtain ⟨hlen, hsplit⟩ := hmatch _ _ _ _ _ hm
      obtain ⟨hacc, hexp, hrest⟩ := hsplit acc hG
      simp only [hlen, if_true]
      have hpre0 : R pre := by simpa using hpre [] (by simpa using hacc)
      have := ih p' rest' [] (pre ++ expand t caps) (by simpa using hrest)
        (fun tail ht => hRapp _ _ (hRapp _ _ hpre0 hexp) (hGR _ (by simpa using ht)))
      simpa [List.append_assoc] using this

/-- The fuel of `replaceAll` is enough: with more fuel than characters the loop
never stops early, so the result does not depend on the fuel. -/
theorem replaceAux_fuel {re : Pattern} {t : Template} :
    ∀ (f1 f2 : Nat) (prev : Option Char) (rest : List Char),
      rest.length < f1 → rest.length < f2 →
      replaceAux re t f1 prev rest = replaceAux re t f2 prev rest := by
  intro f1
  induction f1 with
  | zero => intro f2 prev rest h; simp at h
  | succ a ih =>
    intro f2 prev rest h1 h2
    cases f2 with
    | zero => simp at h2
    | succ b =>
      unfold replaceAux
      cases hm : matchItems re [] prev rest with
      | none =>
        cases rest with
        | nil => rfl
        | cons x xs =>
          simp only
          rw [ih b (some x) xs (by simpa using h1) (by simpa using h2)]
      | some v =>
        obtain ⟨caps, p', rest'⟩ := v
        simp only
        by_cases hl : rest'.length < rest.length
        · simp only [hl, if_true]
          rw [ih b p' rest' (by omega) (by omega)]
        · simp only [hl, if_false]
          cases rest with
          | nil => rfl
          | cons x xs =>
            simp only
            rw [ih b (some x) xs (by simpa using h1) (by simpa using h2)]

theorem replaceAux_eq_replaceAll {re : Pattern} {t : Template} (fuel : Nat) (s : List Char)
    (h : s.length < fuel) : replaceAux re t fuel none s = replaceAll re t s :=
  replaceAux_fuel fuel (s.length + 1) none s h (Nat.lt_succ_self _)

theorem replaceAll_preserves {G R : List Char → Prop} {re : Pattern} {t : Template}
    (hGR : ∀ s, G s → R s) (hRapp : ∀ a b, R a → R b → R (a ++ b))
    (hmatch : ∀ prev rest caps p' rest', matchItems re [] prev rest = some (caps, p', rest') →
      rest'.length < rest.length ∧ ∀ acc, G (acc ++ rest) → G acc ∧ R (expand t caps) ∧ G rest')
    {s : List Char} (hs : G s) : R (replaceAll re t s) := by
  have := replaceAux_preserves hGR hRapp hmatch (s.length + 1) none s [] [] (by simpa using hs)
    (fun tail ht => hGR _ (by simpa using ht))
  simpa [replaceAll] using this

/-- A pattern that is one literal character replaces each occurrence of it. -/
theorem replaceAux_chr (c : Char) (r : List Char) :
    ∀ (rest : List Char) (fuel : Nat) (prev : Option Char), rest.length < fuel →
      replaceAux [.chr c] [.lit r] fuel prev rest
        = rest.flatMap (fun x => if x = c then r else [x]) := by
  intro rest
  induction rest with
  | nil =>
    intro fuel prev h
    cases fuel with
    | zero => simp at h
    | succ n => simp [replaceAux, matchItems]
  | cons x xs ih =>
    intro fuel prev h
    cases fuel with
    | zero => simp at h
    | succ n =>
      have hn : xs.length < n := by simpa using h
      by_cases hx : x = c
      · subst hx
        simp [replaceAux, matchItems, expand, ih xs.length.succ (some x) (Nat.lt_succ_self _), ih n _ hn]
      · simp [replaceAux, matchItems, hx, ih n _ hn]

theorem replaceAll_chr (c : Char) (r s : List Char) :
    replaceAll [.chr c] [.lit r] s = s.flatMap (fun x => if x = c then r else [x]) :=
  replaceAux_chr c r s _ _ (Nat.lt_succ_self _)

/-! ## The output grammar -/

theorem Good.concat {a b : List Char} (ha : Good a) (hb : Good b) : Good (a ++ b) := by
  induction ha with
  | nil => simpa using hb
  | plain c s hc _ ih => exact Good.plain c _ hc ih
  | token t s ht _ ih => simpa [List.append_assoc] using Good.token t _ ht ih

theorem Rendered.append {a b : List Char} (ha : Rendered a) (hb : Rendered b) :
    Rendered (a ++ b) := by
  induction ha with
  | nil => simpa using hb
  | plain c s hc _ ih => exact Rendered.plain c _ hc ih
  | token t s ht _ ih => simpa [List.append_assoc] using Rendered.token t _ ht ih
  | anchor u s hu _ ih => simpa [List.append_assoc] using Rendered.anchor u _ hu ih

theorem Good.toRendered {s : List Char} (h : Good s) : Rendered s := by
  induction h with
  | nil => exact Rendered.nil
  | plain c s hc _ ih => exact Rendered.plain c s hc ih
  | token t s ht _ ih => exact Rendered.token t s ht ih

theorem Good.of_token {t : List Char} (ht : t ∈ entities ++ fixedTags) : Good t := by
  simpa using Good.token t [] ht Good.nil

theorem isDelim_plain {c : Char} (h : isDelim c = true) : isPlain c = true := by
  simp only [isDelim, Bool.and_eq_true] at h
  exact h.1

theorem isDelim_not_mem {c : Char} (h : isDelim c = true) {t : List Char}
    (ht : t ∈ entities ++ fixedTags) : c ∉ t := by
  simp only [isDelim, Bool.and_eq_true, List.all_eq_true] at h
  have := h.2 t ht
  simpa using this

theorem Good.split_aux {c : Char} (hc : isDelim c = true) {s : List Char} (hs : Good s) :
    ∀ a b, s = a ++ c :: b → Good a ∧ Good b := by
  induction hs with
  | nil => intro a b h; simp at h
  | plain c' s' hc' hs' ih =>
    intro a b h
    cases a with
    | nil =>
      simp only [List.nil_append, List.cons.injEq] at h
      obtain ⟨-, rfl⟩ := h
      exact ⟨Good.nil, hs'⟩
    | cons a0 a' =>
      simp only [List.cons_append, List.cons.injEq] at h
      obtain ⟨rfl, h⟩ := h
      obtain ⟨h1, h2⟩ := ih a' b h
      exact ⟨Good.plain _ _ hc' h1, h2⟩
  | token t s' ht hs' ih =>
    intro a b h
    rcases List.append_eq_append_iff.mp h with ⟨a', rfl, h2⟩ | ⟨c', rfl, h2⟩
    · obtain ⟨h3, h4⟩ := ih a' b h2
      exact ⟨Good.token _ _ ht h3, h4⟩
    · cases c' with
      | nil =>
        simp only [List.nil_append] at h2
        obtain ⟨h3, h4⟩ := ih [] b h2.symm
        exact ⟨by simpa using Good.of_token ht, h4⟩
      | cons c0 c'' =>
        simp only [List.cons_append, List.cons.injEq] at h2
        obtain ⟨rfl, -⟩ := h2
        exact absurd (by simp) (isDelim_not_mem hc ht)

theorem Good.split {c : Char} (hc : isDelim c = true) {a b : List Char}
    (h : Good (a ++ c :: b)) : Good a ∧ Good b :=
  Good.split_aux hc h a b rfl

theorem Good.tail {c : Char} (hc : isDelim c = true) {b : List Char} (h : Good (c :: b)) :
    Good b :=
  (Good.split (a := []) hc h).2

theorem isDelim_of_lineTerminator {c : Char} (h : isLineTerminator c = true) :
    isDelim c = true := by
  simp only [isLineTerminator, Bool.or_eq_true, beq_iff_eq] at h
  rcases h with ((rfl | rfl) | rfl) | rfl <;> decide

theorem Good.delim {c : Char} (hc : isDelim c = true) {s : List Char} (h : Good s) :
    Good (c :: s) :=
  Good.plain c s (isDelim_plain hc) h


/-! ## Each pass keeps the output grammar -/

theorem expand_wrapIn (o c cap : List Char) : expand (wrapIn o c) [cap] = o ++ (cap ++ c) := by
  simp [expand, wrapIn]

theorem Good.wrap {o c cap : List Char} (ho : o ∈ entities ++ fixedTags)
    (hc : c ∈ entities ++ fixedTags) (hcap : Good cap) : Good (expand (wrapIn o c) [cap]) := by
  rw [expand_wrapIn]
  exact Good.token o _ ho (Good.concat hcap (Good.of_token hc))

theorem Good.lineRest {cap rest' : List Char} (he : atLineEnd rest' = true)
    (h : Good (cap ++ rest')) : Good cap ∧ Good rest' := by
  cases rest' with
  | nil => exact ⟨by simpa using h, Good.nil⟩
  | cons x xs =>
    have hx : isDelim x = true := isDelim_of_lineTerminator (by simpa [atLineEnd] using he)
    obtain ⟨h1, h2⟩ := Good.split hx h
    exact ⟨h1, Good.delim hx h2⟩

theorem Good.replaceAll_h3 {s : List Char} (hs : Good s) : Good (replaceAll reH3 tH3 s) := by
  refine replaceAll_preserves (G := Good) (R := Good) (fun _ h => h) (fun _ _ => Good.concat) ?_ hs
  intro prev rest caps p' rest' hm
  obtain ⟨cap, rfl, rfl, hne, -, he, -⟩ := reH3_shape hm
  refine ⟨by simp; omega, fun acc hG => ?_⟩
  obtain ⟨h1, h2⟩ := Good.split (by decide) hG
  obtain ⟨h3, h4⟩ := Good.lineRest he
    (Good.tail (by decide) (Good.tail (by decide) (Good.tail (by decide) h2)))
  exact ⟨h1, Good.wrap (by decide) (by decide) h3, h4⟩

theorem Good.replaceAll_h2 {s : List Char} (hs : Good s) : Good (replaceAll reH2 tH2 s) := by
  refine replaceAll_preserves (G := Good) (R := Good) (fun _ h => h) (fun _ _ => Good.concat) ?_ hs
  intro prev rest caps p' rest' hm
  obtain ⟨cap, rfl, rfl, hne, -, he, -⟩ := reH2_shape hm
  refine ⟨by simp; omega, fun acc hG => ?_⟩
  obtain ⟨h1, h2⟩ := Good.split (by decide) hG
  obtain ⟨h3, h4⟩ := Good.lineRest he (Good.tail (by decide) (Good.tail (by decide) h2))
  exact ⟨h1, Good.wrap (by decide) (by decide) h3, h4⟩

theorem Good.replaceAll_h1 {s : List Char} (hs : Good s) : Good (replaceAll reH1 tH1 s) := by
  refine replaceAll_preserves (G := Good) (R := Good) (fun _ h => h) (fun _ _ => Good.concat) ?_ hs
  intro prev rest caps p' rest' hm
  obtain ⟨cap, rfl, rfl, hne, -, he, -⟩ := reH1_shape hm
  refine ⟨by simp; omega, fun acc hG => ?_⟩
  obtain ⟨h1, h2⟩ := Good.split (by decide) hG
  obtain ⟨h3, h4⟩ := Good.lineRest he (Good.tail (by decide) h2)
  exact ⟨h1, Good.wrap (by decide) (by decide) h3, h4⟩

theorem Good.replaceAll_bold {d : Char} (hd : isDelim d = true) {o c : List Char}
    (ho : o ∈ entities ++ fixedTags) (hc : c ∈ entities ++ fixedTags)
    {s : List Char} (hs : Good s) :
    Good (replaceAll [.chr d, .chr d, .group false .dot, .chr d, .chr d] (wrapIn o c) s) := by
  refine replaceAll_preserves (G := Good) (R := Good) (fun _ h => h) (fun _ _ => Good.concat) ?_ hs
  intro prev rest caps p' rest' hm
  obtain ⟨cap, rfl, rfl, hne, -⟩ := reBold_shape hm
  refine ⟨by simp; omega, fun acc hG => ?_⟩
  obtain ⟨h1, h2⟩ := Good.split hd hG
  obtain ⟨h3, h4⟩ := Good.split hd (Good.tail hd h2)
  exact ⟨h1, Good.wrap ho hc h3, Good.tail hd h4⟩

theorem Good.replaceAll_italic {d : Char} (hd : isDelim d = true) {o c : List Char}
    (ho : o ∈ entities ++ fixedTags) (hc : c ∈ entities ++ fixedTags)
    {s : List Char} (hs : Good s) :
    Good (replaceAll [.chr d, .notAhead d, .group false .dot, .chr d] (wrapIn o c) s) := by
  refine replaceAll_preserves (G := Good) (R := Good) (fun _ h => h) (fun _ _ => Good.concat) ?_ hs
  intro prev rest caps p' rest' hm
  obtain ⟨cap, rfl, rfl, hne, -⟩ := reItalic_shape hm
  refine ⟨by simp; omega, fun acc hG => ?_⟩
  obtain ⟨h1, h2⟩ := Good.split hd hG
  obtain ⟨h3, h4⟩ := Good.split hd h2
  exact ⟨h1, Good.wrap ho hc h3, h4⟩

theorem Good.replaceAll_code {s : List Char} (hs : Good s) :
    Good (replaceAll reCode tCode s) := by
  refine replaceAll_preserves (G := Good) (R := Good) (fun _ h => h) (fun _ _ => Good.concat) ?_ hs
  intro prev rest caps p' rest' hm
  obtain ⟨cap, rfl, rfl, hne, -⟩ := reCode_shape hm
  refine ⟨by simp; omega, fun acc hG => ?_⟩
  obtain ⟨h1, h2⟩ := Good.split (by decide) hG
  obtain ⟨h3, h4⟩ := Good.split (by decide) h2
  exact ⟨h1, Good.wrap (by decide) (by decide) h3, h4⟩

theorem expand_tLink (txt url : List Char) :
    expand tLink [txt, url] = anchorOpen url ++ (txt ++ "</a>".toList) := by
  simp [expand, tLink, anchorOpen]

theorem Good.replaceAll_link {s : List Char} (hs : Good s) :
    Rendered (replaceAll reLink tLink s) := by
  refine replaceAll_preserves (G := Good) (R := Rendered) (fun _ h => Good.toRendered h)
    (fun _ _ => Rendered.append) ?_ hs
  intro prev rest caps p' rest' hm
  obtain ⟨txt, url, rfl, rfl, -, -, -, -⟩ := reLink_shape hm
  refine ⟨by simp; omega, fun acc hG => ?_⟩
  obtain ⟨h1, h2⟩ := Good.split (by decide) hG
  obtain ⟨h3, h4⟩ := Good.split (by decide) h2
  obtain ⟨h5, h6⟩ := Good.split (by decide) (Good.tail (by decide) h4)
  refine ⟨h1, ?_, h6⟩
  rw [expand_tLink]
  exact Rendered.anchor url _ h5
    (Rendered.append (Good.toRendered h3) (Good.toRendered (Good.of_token (by decide))))

theorem Good.markdownPasses {html : List Char} (h : Good html) :
    Rendered (markdownPasses html) := by
  unfold Chatbot.markdownPasses
  apply Good.replaceAll_link
  apply Good.replaceAll_code
  apply Good.replaceAll_italic (by decide) (by decide) (by decide)
  apply Good.replaceAll_italic (by decide) (by decide) (by decide)
  apply Good.replaceAll_bold (by decide) (by decide) (by decide)
  apply Good.replaceAll_bold (by decide) (by decide) (by decide)
  apply Good.replaceAll_h1
  apply Good.replaceAll_h2
  apply Good.replaceAll_h3
  exact h

/-! ## Escaping and line breaks -/

theorem escapeHtml_eq (s : List Char) : escapeHtml s = s.flatMap escapeChar := by
  simp only [escapeHtml, reAmp, reLt, reGt, replaceAll_chr]
  induction s with
  | nil => rfl
  | cons x xs ih =>
    simp only [List.flatMap_cons, List.flatMap_append, ih]
    congr 1
    by_cases h1 : x = '&'
    · subst h1; decide
    · by_cases h2 : x = '<'
      · subst h2; decide
      · by_cases h3 : x = '>'
        · subst h3; decide
        · simp [escapeChar, h1, h2, h3]

theorem replaceAll_newline (s : List Char) :
    replaceAll reNewline [.lit "<br>".toList] s = s.flatMap brChar := by
  simp only [reNewline, replaceAll_chr]
  rfl

theorem Good.escapeHtml (s : List Char) : Good (escapeHtml s) := by
  rw [escapeHtml_eq]
  induction s with
  | nil => exact Good.nil
  | cons x xs ih =>
    simp only [List.flatMap_cons]
    by_cases h1 : x = '&'
    · subst h1; exact Good.token _ _ (by decide) ih
    · by_cases h2 : x = '<'
      · subst h2; exact Good.token _ _ (by decide) ih
      · by_cases h3 : x = '>'
        · subst h3; exact Good.token _ _ (by decide) ih
        · simp only [escapeChar, h1, h2, h3, if_false, List.singleton_append]
          exact Good.plain _ _ (by simp [isPlain, h1, h2, h3]) ih

theorem flatMap_brChar_of_not_mem {t : List Char} (h : '\n' ∉ t) : t.flatMap brChar = t := by
  induction t with
  | nil => rfl
  | cons x xs ih =>
    simp only [List.mem_cons, not_or] at h
    simp [List.flatMap_cons, brChar, Ne.symm h.1, ih h.2]

theorem Good.brChar_cons {P : List Char → Prop} (c : Char) (s : List Char)
    (hplain : isPlain c = true → P s → P (c :: s))
    (htok : P s → P ("<br>".toList ++ s)) (hc : isPlain c = true) (hs : P s) :
    P (brChar c ++ s) := by
  by_cases h : c = '\n'
  · subst h; exact htok hs
  · simpa [brChar, h] using hplain hc hs

theorem Good.lineBreaks {s : List Char} (h : Good s) : Good (s.flatMap brChar) := by
  induction h with
  | nil => exact Good.nil
  | plain c s hc _ ih =>
    rw [List.flatMap_cons]
    exact Good.brChar_cons (P := Good) c _ (Good.plain c _) (Good.token _ _ (by decide)) hc ih
  | token t s ht _ ih =>
    rw [List.flatMap_append, flatMap_brChar_of_not_mem (isDelim_not_mem (by decide) ht)]
    exact Good.token t _ ht ih

theorem Rendered.flatMap_brChar {s : List Char} (h : Rendered s) :
    Rendered (s.flatMap brChar) := by
  induction h with
  | nil => exact Rendered.nil
  | plain c s hc _ ih =>
    rw [List.flatMap_cons]
    exact Good.brChar_cons (P := Rendered) c _ (Rendered.plain c _)
      (Rendered.token _ _ (by decide)) hc ih
  | token t s ht _ ih =>
    rw [List.flatMap_append, flatMap_brChar_of_not_mem (isDelim_not_mem (by decide) ht)]
    exact Rendered.token t _ ht ih
  | anchor u s hu _ ih =>
    have e : (anchorOpen u ++ s).flatMap brChar
        = anchorOpen (u.flatMap brChar) ++ s.flatMap brChar := by
      simp only [anchorOpen, List.flatMap_append]
      rw [flatMap_brChar_of_not_mem (t := anchorHead) (by decide),
        flatMap_brChar_of_not_mem (t := anchorMid) (by decide)]
    rw [e]
    exact Rendered.anchor _ _ (Good.lineBreaks hu) ih

theorem Rendered.parseMarkdown (s : List Char) : Rendered (parseMarkdown s) := by
  unfold Chatbot.parseMarkdown
  split
  · exact Rendered.nil
  · rw [replaceAll_newline]
    exact Rendered.flatMap_brChar (Good.markdownPasses (Good.escapeHtml s))

/-! ## Where the special characters of rendered text stand -/

theorem mem_tail_of_eq_append {L a b : List Char} {c : Char} (h : L = a ++ c :: b)
    (ha : a ≠ []) : c ∈ L.tail := by
  subst h
  cases a with
  | nil => exact absurd rfl ha
  | cons x xs => simp

theorem mem_dropLast_of_eq_append {L a b : List Char} {c : Char} (h : L = a ++ c :: b)
    (hb : b ≠ []) : c ∈ L.dropLast := by
  subst h
  have : a ++ c :: b = (a ++ [c]) ++ b := by simp
  rw [this, List.dropLast_append_of_ne_nil _ hb]
  simp

theorem anchorHead_special {a b : List Char} {c : Char} (h : anchorHead = a ++ c :: b)
    (hc : isPlain c = false) : a = [] ∧ c = '<' := by
  have ha : a = [] := by
    by_contra hne
    have hmem := mem_tail_of_eq_append h hne
    have hall : ∀ x ∈ anchorHead.tail, isPlain x = true := by decide
    simp [hall c hmem] at hc
  subst ha
  have e : anchorHead = '<' :: "a href=\"".toList := rfl
  rw [e] at h
  simp only [List.nil_append, List.cons.injEq] at h
  exact ⟨rfl, h.1.symm⟩

theorem anchorMid_special {a b : List Char} {c : Char} (h : anchorMid = a ++ c :: b)
    (hc : isPlain c = false) : c = '>' ∧ b = [] := by
  have hb : b = [] := by
    by_contra hne
    have hmem := mem_dropLast_of_eq_append h hne
    have hall : ∀ x ∈ anchorMid.dropLast, isPlain x = true := by decide
    simp [hall c hmem] at hc
  subst hb
  have e : anchorMid.getLast? = some '>' := by decide
  rw [h] at e
  exact ⟨by simpa using e, rfl⟩

theorem Good.special_in_token {s : List Char} (hs : Good s) :
    ∀ (pre : List Char) (c : Char) (post : List Char), s = pre ++ c :: post →
      isPlain c = false →
      ∃ A t1 t2 B, pre = A ++ t1 ∧ post = t2 ++ B ∧ t1 ++ c :: t2 ∈ entities ++ fixedTags := by
  induction hs with
  | nil => intro pre c post h; simp at h
  | plain c' s' hc' _ ih =>
    intro pre c post h hc
    cases pre with
    | nil =>
      simp only [List.nil_append, List.cons.injEq] at h
      obtain ⟨rfl, -⟩ := h
      simp [hc'] at hc
    | cons p0 pre' =>
      simp only [List.cons_append, List.cons.injEq] at h
      obtain ⟨rfl, h⟩ := h
      obtain ⟨A, t1, t2, B, rfl, rfl, ht⟩ := ih pre' c post h hc
      exact ⟨c' :: A, t1, t2, B, by simp, rfl, ht⟩
  | token t s' ht _ ih =>
    intro pre c post h hc
    rcases List.append_eq_append_iff.mp h with ⟨a', rfl, h2⟩ | ⟨c', rfl, h2⟩
    · obtain ⟨A, t1, t2, B, rfl, rfl, ht'⟩ := ih a' c post h2 hc
      exact ⟨t ++ A, t1, t2, B, by simp, rfl, ht'⟩
    · cases c' with
      | nil =>
        simp only [List.nil_append] at h2
        obtain ⟨A, t1, t2, B, h3, rfl, ht'⟩ := ih [] c post h2.symm hc
        obtain ⟨rfl, rfl⟩ := List.append_eq_nil.mp h3.symm
        exact ⟨pre, [], t2, B, by simp, rfl, ht'⟩
      | cons c0 c'' =>
        simp only [List.cons_append, List.cons.injEq] at h2
        obtain ⟨rfl, rfl⟩ := h2
        exact ⟨[], pre, c'', s', by simp, rfl, ht⟩

theorem Rendered.at_special {s : List Char} (hs : Rendered s) :
    ∀ (pre : List Char) (c : Char) (post : List Char), s = pre ++ c :: post →
      isPlain c = false →
      (∃ A t1 t2 B, pre = A ++ t1 ∧ post = t2 ++ B ∧ t1 ++ c :: t2 ∈ entities ++ fixedTags) ∨
      (∃ u, Good u ∧ c = '<' ∧ anchorOpen u <+: c :: post) ∨
      (∃ u, Good u ∧ c = '>' ∧ anchorOpen u <:+ pre ++ [c]) := by
  induction hs with
  | nil => intro pre c post h; simp at h
  | plain c' s' hc' _ ih =>
    intro pre c post h hc
    cases pre with
    | nil =>
      simp only [List.nil_append, List.cons.injEq] at h
      obtain ⟨rfl, -⟩ := h
      simp [hc'] at hc
    | cons p0 pre' =>
      simp only [List.cons_append, List.cons.injEq] at h
      obtain ⟨rfl, h⟩ := h
      rcases ih pre' c post h hc with ⟨A, t1, t2, B, rfl, rfl, ht⟩ | ⟨u, hu, hcu, hp⟩ |
        ⟨u, hu, hcu, hp⟩
      · exact Or.inl ⟨c' :: A, t1, t2, B, by simp, rfl, ht⟩
      · exact Or.inr (Or.inl ⟨u, hu, hcu, hp⟩)
      · refine Or.inr (Or.inr ⟨u, hu, hcu, ?_⟩)
        exact hp.trans (List.suffix_cons _ _)
  | token t s' ht _ ih =>
    intro pre c post h hc
    have lift : ∀ a', s' = a' ++ c :: post →
        (∃ A t1 t2 B, t ++ a' = A ++ t1 ∧ post = t2 ++ B ∧
          t1 ++ c :: t2 ∈ entities ++ fixedTags) ∨
        (∃ u, Good u ∧ c = '<' ∧ anchorOpen u <+: c :: post) ∨
        (∃ u, Good u ∧ c = '>' ∧ anchorOpen u <:+ (t ++ a') ++ [c]) := by
      intro a' h2
      rcases ih a' c post h2 hc with ⟨A, t1, t2, B, rfl, rfl, ht'⟩ | ⟨u, hu, hcu, hp⟩ |
        ⟨u, hu, hcu, hp⟩
      · exact Or.inl ⟨t ++ A, t1, t2, B, by simp, rfl, ht'⟩
      · exact Or.inr (Or.inl ⟨u, hu, hcu, hp⟩)
      · refine Or.inr (Or.inr ⟨u, hu, hcu, ?_⟩)
        rw [List.append_assoc]
        exact hp.trans (List.suffix_append _ _)
    rcases List.append_eq_append_iff.mp h with ⟨a', rfl, h2⟩ | ⟨c', rfl, h2⟩
    · exact lift a' h2
    · cases c' with
      | nil =>
        simp only [List.nil_append] at h2
        simpa using lift [] (by simpa using h2.symm)
      | cons c0 c'' =>
        simp only [List.cons_append, List.cons.injEq] at h2
        obtain ⟨rfl, rfl⟩ := h2
        exact Or.inl ⟨[], pre, c'', s', by simp, rfl, ht⟩
  | anchor u s' hu _ ih =>
    intro pre c post h hc
    have lift : ∀ a', s' = a' ++ c :: post →
        (∃ A t1 t2 B, anchorOpen u ++ a' = A ++ t1 ∧ post = t2 ++ B ∧
          t1 ++ c :: t2 ∈ entities ++ fixedTags) ∨
        (∃ u, Good u ∧ c = '<' ∧ anchorOpen u <+: c :: post) ∨
        (∃ v, Good v ∧ c = '>' ∧ anchorOpen v <:+ (anchorOpen u ++ a') ++ [c]) := by
      intro a' h2
      rcases ih a' c post h2 hc with ⟨A, t1, t2, B, rfl, rfl, ht'⟩ | ⟨v, hv, hcv, hp⟩ |
        ⟨v, hv, hcv, hp⟩
      · exact Or.inl ⟨anchorOpen u ++ A, t1, t2, B, by simp, rfl, ht'⟩
      · exact Or.inr (Or.inl ⟨v, hv, hcv, hp⟩)
      · refine Or.inr (Or.inr ⟨v, hv, hcv, ?_⟩)
        rw [List.append_assoc]
        exact hp.trans (List.suffix_append _ _)
    have inUrl : ∀ a5 c4, u = a5 ++ c :: c4 →
        ∃ A t1 t2 B, anchorHead ++ a5 = A ++ t1 ∧ c4 ++ anchorMid ++ s' = t2 ++ B ∧
          t1 ++ c :: t2 ∈ entities ++ fixedTags := by
      intro a5 c4 h5
      obtain ⟨A, t1, t2, B, rfl, rfl, ht'⟩ := hu.special_in_token a5 c c4 h5 hc
      exact ⟨anchorHead ++ A, t1, t2, B ++ anchorMid ++ s', by simp, by simp, ht'⟩
    have inMid : ∀ a' c'', anchorMid = a' ++ c :: c'' →
        c = '>' ∧ anchorOpen u = (anchorHead ++ u ++ a') ++ [c] ∧ c'' = [] := by
      intro a' c'' h6
      obtain ⟨h7, rfl⟩ := anchorMid_special h6 hc
      exact ⟨h7, by simp [anchorOpen, h6], rfl⟩
    rcases List.append_eq_append_iff.mp h with ⟨a', rfl, h2⟩ | ⟨c', h1, h2⟩
    · exact lift a' h2
    · cases c' with
      | nil =>
        simp only [List.nil_append, List.append_nil] at h2 h1
        subst h1
        simpa using lift [] (by simpa using h2.symm)
      | cons c0 c'' =>
        simp only [List.cons_append, List.cons.injEq] at h2
        obtain ⟨rfl, rfl⟩ := h2
        unfold anchorOpen at h1
        rcases List.append_eq_append_iff.mp h1 with ⟨a', rfl, h3⟩ | ⟨c3, h3, h4⟩
        · obtain ⟨h7, h8, rfl⟩ := inMid a' c'' h3
          refine Or.inr (Or.inr ⟨u, hu, h7, ?_⟩)
          rw [h8]
        · cases c3 with
          | nil =>
            simp only [List.nil_append, List.append_nil] at h3 h4
            obtain ⟨h7, h8, rfl⟩ := inMid [] c'' h4.symm
            subst h3
            refine Or.inr (Or.inr ⟨u, hu, h7, ?_⟩)
            rw [h8]
            simp
          | cons c5 c4 =>
            simp only [List.cons_append, List.cons.injEq] at h4
            obtain ⟨rfl, rfl⟩ := h4
            rcases List.append_eq_append_iff.mp h3 with ⟨a5, rfl, h5⟩ | ⟨c6, h5, h6⟩
            · exact Or.inl (inUrl a5 c4 h5)
            · cases c6 with
              | nil =>
                simp only [List.nil_append, List.append_nil] at h5 h6
                subst h5
                simpa using Or.inl (inUrl [] c4 h6.symm)
              | cons c8 c7 =>
                simp only [List.cons_append, List.cons.injEq] at h6
                obtain ⟨rfl, rfl⟩ := h6
                obtain ⟨rfl, h9⟩ := anchorHead_special h5 hc
                refine Or.inr (Or.inl ⟨u, hu, h9, ?_⟩)
                refine ⟨s', ?_⟩
                simp [anchorOpen, h5]

theorem token_lt {t t1 t2 : List Char} (ht : t ∈ entities ++ fixedTags)
    (h : t = t1 ++ '<' :: t2) : t1 = [] ∧ t ∈ fixedTags := by
  have h1 : ∀ t ∈ entities ++ fixedTags, '<' ∉ t.tail := by decide
  have h2 : ∀ t ∈ entities, '<' ∉ t := by decide
  refine ⟨?_, ?_⟩
  · by_contra hne
    exact h1 t ht (mem_tail_of_eq_append h hne)
  · rcases List.mem_append.mp ht with he | hf
    · exact absurd (by simp [h]) (h2 t he)
    · exact hf

theorem token_gt {t t1 t2 : List Char} (ht : t ∈ entities ++ fixedTags)
    (h : t = t1 ++ '>' :: t2) : t2 = [] ∧ t ∈ fixedTags := by
  have h1 : ∀ t ∈ entities ++ fixedTags, '>' ∉ t.dropLast := by decide
  have h2 : ∀ t ∈ entities, '>' ∉ t := by decide
  refine ⟨?_, ?_⟩
  · by_contra hne
    exact h1 t ht (mem_dropLast_of_eq_append h hne)
  · rcases List.mem_append.mp ht with he | hf
    · exact absurd (by simp [h]) (h2 t he)
    · exact hf

theorem token_amp {t t1 t2 : List Char} (ht : t ∈ entities ++ fixedTags)
    (h : t = t1 ++ '&' :: t2) : t1 = [] ∧ t ∈ entities := by
  have h1 : ∀ t ∈ entities ++ fixedTags, '&' ∉ t.tail := by decide
  have h2 : ∀ t ∈ fixedTags, '&' ∉ t := by decide
  refine ⟨?_, ?_⟩
  · by_contra hne
    exact h1 t ht (mem_tail_of_eq_append h hne)
  · rcases List.mem_append.mp ht with he | hf
    · exact he
    · exact absurd (by simp [h]) (h2 t hf)

theorem Rendered.lt_starts_tag {s pre post : List Char} (hs : Rendered s)
    (h : s = pre ++ '<' :: post) : ∃ t, GeneratedTag t ∧ t <+: '<' :: post := by
  rcases hs.at_special pre '<' post h (by decide) with ⟨A, t1, t2, B, rfl, rfl, ht⟩ |
    ⟨u, hu, -, hp⟩ | ⟨u, -, hc, -⟩
  · obtain ⟨rfl, hf⟩ := token_lt ht rfl
    exact ⟨_, Or.inl hf, by simp⟩
  · exact ⟨_, Or.inr ⟨u, hu, rfl⟩, hp⟩
  · exact absurd hc (by decide)

theorem Rendered.gt_ends_tag {s pre post : List Char} (hs : Rendered s)
    (h : s = pre ++ '>' :: post) : ∃ t, GeneratedTag t ∧ t <:+ pre ++ ['>'] := by
  rcases hs.at_special pre '>' post h (by decide) with ⟨A, t1, t2, B, rfl, rfl, ht⟩ |
    ⟨u, -, hc, -⟩ | ⟨u, hu, -, hp⟩
  · obtain ⟨rfl, hf⟩ := token_gt ht rfl
    exact ⟨_, Or.inl hf, by simp [List.append_assoc]⟩
  · exact absurd hc (by decide)
  · exact ⟨_, Or.inr ⟨u, hu, rfl⟩, hp⟩

theorem Rendered.amp_starts_entity {s pre post : List Char} (hs : Rendered s)
    (h : s = pre ++ '&' :: post) : ∃ e, e ∈ entities ∧ e <+: '&' :: post := by
  rcases hs.at_special pre '&' post h (by decide) with ⟨A, t1, t2, B, rfl, rfl, ht⟩ |
    ⟨u, -, hc, -⟩ | ⟨u, -, hc, -⟩
  · obtain ⟨rfl, hf⟩ := token_amp ht rfl
    exact ⟨_, hf, by simp⟩
  · exact absurd hc (by decide)
  · exact absurd hc (by decide)

/-! ## C1 -/

/-- C1: for every input string, the output of `parseMarkdown` is made of plain
characters, the three entities, attribute-free generated tags and anchor
opening tags; every `<` in it is the first character of a generated tag, every
`>` is the last character of a generated tag, and every `&` starts one of
`&amp;`, `&lt;`, `&gt;`. -/
theorem parseMarkdown_special_characters (s : List Char) :
    Rendered (parseMarkdown s) ∧
    (∀ pre post, parseMarkdown s = pre ++ '<' :: post →
      ∃ t, GeneratedTag t ∧ t <+: '<' :: post) ∧
    (∀ pre post, parseMarkdown s = pre ++ '>' :: post →
      ∃ t, GeneratedTag t ∧ t <:+ pre ++ ['>']) ∧
    (∀ pre post, parseMarkdown s = pre ++ '&' :: post →
      ∃ e, e ∈ entities ∧ e <+: '&' :: post) :=
  ⟨Rendered.parseMarkdown s,
   fun _ _ h => (Rendered.parseMarkdown s).lt_starts_tag h,
   fun _ _ h => (Rendered.parseMarkdown s).gt_ends_tag h,
   fun _ _ h => (Rendered.parseMarkdown s).amp_starts_entity h⟩

/-! ## Passes that find no match -/

theorem replaceAux_of_no_match {re : Pattern} {t : Template} :
    ∀ (rest : List Char) (fuel : Nat) (prev : Option Char),
      (∀ p t', t' <:+ rest → matchItems re [] p t' = none) →
      replaceAux re t fuel prev rest = rest := by
  intro rest
  induction rest with
  | nil =>
    intro fuel prev h
    cases fuel with
    | zero => rfl
    | succ n => simp [replaceAux, h prev [] (List.suffix_refl _)]
  | cons x xs ih =>
    intro fuel prev h
    cases fuel with
    | zero => rfl
    | succ n =>
      simp only [replaceAux, h prev (x :: xs) (List.suffix_refl _)]
      rw [ih n (some x) (fun p t' ht => h p t' (ht.trans (List.suffix_cons _ _)))]

theorem replaceAll_of_no_match {re : Pattern} {t : Template} {s : List Char}
    (h : ∀ p t', t' <:+ s → matchItems re [] p t' = none) : replaceAll re t s = s :=
  replaceAux_of_no_match s _ _ h

theorem matchItems_chr_of_not_mem {c : Char} {is : Pattern} {caps p} {rest : List Char}
    (h : c ∉ rest) : matchItems (.chr c :: is) caps p rest = none := by
  cases hm : matchItems (.chr c :: is) caps p rest with
  | none => rfl
  | some v =>
    obtain ⟨xs, rfl, -⟩ := matchItems_chr.mp hm
    simp at h

theorem no_match_of_not_mem {c : Char} {is : Pattern} {s : List Char} (h : c ∉ s) :
    ∀ (p : Option Char) (t' : List Char), t' <:+ s →
      matchItems (.chr c :: is) [] p t' = none :=
  fun _ _ ht => matchItems_chr_of_not_mem (fun hc => h (ht.subset hc))

theorem replaceAll_of_not_mem {c : Char} {is : Pattern} {t : Template} {s : List Char}
    (h : c ∉ s) : replaceAll (.chr c :: is) t s = s :=
  replaceAll_of_no_match (no_match_of_not_mem h)

theorem no_match_bold_of_count {d : Char} {s : List Char} (h : s.count d < 4) :
    ∀ (p : Option Char) (t' : List Char), t' <:+ s →
      matchItems [.chr d, .chr d, .group false .dot, .chr d, .chr d] [] p t' = none := by
  intro p t' ht
  cases hm : matchItems [.chr d, .chr d, .group false .dot, .chr d, .chr d] [] p t' with
  | none => rfl
  | some v =>
    obtain ⟨caps, p', rest'⟩ := v
    obtain ⟨cap, rfl, -, -, -⟩ := reBold_shape hm
    have := ht.sublist.count_le d
    simp only [List.count_cons_self, List.count_append] at this
    omega

theorem no_match_italic_of_count {d : Char} {s : List Char} (h : s.count d < 2) :
    ∀ (p : Option Char) (t' : List Char), t' <:+ s →
      matchItems [.chr d, .notAhead d, .group false .dot, .chr d] [] p t' = none := by
  intro p t' ht
  cases hm : matchItems [.chr d, .notAhead d, .group false .dot, .chr d] [] p t' with
  | none => rfl
  | some v =>
    obtain ⟨caps, p', rest'⟩ := v
    obtain ⟨cap, rfl, -, -, -⟩ := reItalic_shape hm
    have := ht.sublist.count_le d
    simp only [List.count_cons_self, List.count_append] at this
    omega

/-- A pattern that starts with `^#` finds nothing in text none of whose lines
begins with `#`. -/
theorem replaceAux_header {is : Pattern} {t : Template} :
    ∀ (rest : List Char) (fuel : Nat) (prev : Option Char),
      hashAtLineStart prev rest = false →
      replaceAux (.bol :: .chr '#' :: is) t fuel prev rest = rest := by
  intro rest
  induction rest with
  | nil =>
    intro fuel prev _
    cases fuel with
    | zero => rfl
    | succ n =>
      have : matchItems (.bol :: .chr '#' :: is) [] prev [] = none := by
        by_cases hb : atLineStart prev = true <;> simp [matchItems, hb]
      simp [replaceAux, this]
  | cons x xs ih =>
    intro fuel prev h
    cases fuel with
    | zero => rfl
    | succ n =>
      simp only [hashAtLineStart, Bool.or_eq_false_iff, Bool.and_eq_false_iff] at h
      have : matchItems (.bol :: .chr '#' :: is) [] prev (x :: xs) = none := by
        by_cases hb : atLineStart prev = true
        · have hx : x ≠ '#' := by
            rcases h.1 with h1 | h1
            · simp [hb] at h1
            · simpa using h1
          simp [matchItems, hb, hx]
        · simp [matchItems, hb]
      simp only [replaceAux, this]
      rw [ih n (some x) h.2]

theorem replaceAll_header {is : Pattern} {t : Template} {s : List Char}
    (h : hashAtLineStart none s = false) : replaceAll (.bol :: .chr '#' :: is) t s = s :=
  replaceAux_header s _ _ h

/-- Text with no `#` at a line start, at most one `*`, and no `_`, backtick or
`[` passes the markdown substitutions unchanged. -/
theorem markdownPasses_of_no_token {s : List Char} (h1 : hashAtLineStart none s = false)
    (h2 : s.count '*' ≤ 1) (h3 : '_' ∉ s) (h4 : backtick ∉ s) (h5 : '[' ∉ s) :
    markdownPasses s = s := by
  unfold markdownPasses
  rw [show replaceAll reH3 tH3 s = s from replaceAll_header h1,
    show replaceAll reH2 tH2 s = s from replaceAll_header h1,
    show replaceAll reH1 tH1 s = s from replaceAll_header h1,
    show replaceAll reBoldStar tStrong s = s from
      replaceAll_of_no_match (no_match_bold_of_count (by omega)),
    show replaceAll reBoldUnder tStrong s = s from replaceAll_of_not_mem h3,
    show replaceAll reItalicStar tEm s = s from
      replaceAll_of_no_match (no_match_italic_of_count (by omega)),
    show replaceAll reItalicUnder tEm s = s from replaceAll_of_not_mem h3,
    show replaceAll reCode tCode s = s from replaceAll_of_not_mem h4,
    show replaceAll reLink tLink s = s from replaceAll_of_not_mem h5]

/-! ## Escaping and the markdown tokens -/

theorem escapeChar_cases (x : Char) :
    (x = '&' ∧ escapeChar x = "&amp;".toList) ∨ (x = '<' ∧ escapeChar x = "&lt;".toList) ∨
    (x = '>' ∧ escapeChar x = "&gt;".toList) ∨ (isPlain x = true ∧ escapeChar x = [x]) := by
  by_cases h1 : x = '&'
  · subst h1; exact Or.inl ⟨rfl, by decide⟩
  · by_cases h2 : x = '<'
    · subst h2; exact Or.inr (Or.inl ⟨rfl, by decide⟩)
    · by_cases h3 : x = '>'
      · subst h3; exact Or.inr (Or.inr (Or.inl ⟨rfl, by decide⟩))
      · exact Or.inr (Or.inr (Or.inr ⟨by simp [isPlain, h1, h2, h3],
          by simp [escapeChar, h1, h2, h3]⟩))

theorem count_escapeChar {c : Char} (hc : isDelim c = true) (x : Char) :
    (escapeChar x).count c = [x].count c := by
  have hp := isDelim_plain hc
  have hne : c ≠ '&' ∧ c ≠ '<' ∧ c ≠ '>' := by
    have := hp
    simp only [isPlain, Bool.and_eq_true, bne_iff_ne] at this
    exact ⟨this.2, this.1.1, this.1.2⟩
  rcases escapeChar_cases x with ⟨rfl, e⟩ | ⟨rfl, e⟩ | ⟨rfl, e⟩ | ⟨-, e⟩
  · rw [e, List.count_eq_zero_of_not_mem (isDelim_not_mem hc (by decide))]
    simp [List.count_singleton, hne.1.symm]
  · rw [e, List.count_eq_zero_of_not_mem (isDelim_not_mem hc (by decide))]
    simp [List.count_singleton, hne.2.1.symm]
  · rw [e, List.count_eq_zero_of_not_mem (isDelim_not_mem hc (by decide))]
    simp [List.count_singleton, hne.2.2.symm]
  · rw [e]

theorem count_escapeHtml {c : Char} (hc : isDelim c = true) (s : List Char) :
    (escapeHtml s).count c = s.count c := by
  rw [escapeHtml_eq]
  induction s with
  | nil => rfl
  | cons x xs ih =>
    rw [List.flatMap_cons, List.count_append, ih, count_escapeChar hc]
    simp [List.count_cons, List.count_singleton, Nat.add_comm]

theorem mem_escapeHtml {c : Char} (hc : isDelim c = true) (s : List Char) :
    c ∈ escapeHtml s ↔ c ∈ s := by
  rw [← List.count_pos_iff, ← List.count_pos_iff, count_escapeHtml hc]

theorem hashAtLineStart_flatMap_escapeChar (s : List Char) :
    ∀ p1 p2 : Option Char, atLineStart p1 = atLineStart p2 →
      hashAtLineStart p1 (s.flatMap escapeChar) = hashAtLineStart p2 s := by
  induction s with
  | nil => intro p1 p2 _; rfl
  | cons x xs ih =>
    intro p1 p2 hp
    rw [List.flatMap_cons]
    rcases escapeChar_cases x with ⟨rfl, e⟩ | ⟨rfl, e⟩ | ⟨rfl, e⟩ | ⟨-, e⟩
    · rw [e]
      have := ih (some ';') (some '&') (by decide)
      simpa [hashAtLineStart] using this
    · rw [e]
      have := ih (some ';') (some '<') (by decide)
      simpa [hashAtLineStart] using this
    · rw [e]
      have := ih (some ';') (some '>') (by decide)
      simpa [hashAtLineStart] using this
    · rw [e]
      simp [hashAtLineStart, hp, ih (some x) (some x) rfl]

theorem hashAtLineStart_escapeHtml (s : List Char) :
    hashAtLineStart none (escapeHtml s) = hashAtLineStart none s := by
  rw [escapeHtml_eq]
  exact hashAtLineStart_flatMap_escapeChar s none none rfl

/-- Text without markdown tokens is only escaped and gets its line breaks. -/
theorem parseMarkdown_of_no_token {s : List Char} (h1 : hashAtLineStart none s = false)
    (h2 : s.count '*' ≤ 1) (h3 : '_' ∉ s) (h4 : backtick ∉ s) (h5 : '[' ∉ s) :
    parseMarkdown s = (escapeHtml s).flatMap brChar := by
  unfold parseMarkdown
  split
  · next h => subst h; rfl
  · rw [replaceAll_newline, markdownPasses_of_no_token
      (by rw [hashAtLineStart_escapeHtml]; exact h1)
      (by rw [count_escapeHtml (by decide)]; exact h2)
      (by rw [mem_escapeHtml (by decide)]; exact h3)
      (by rw [mem_escapeHtml (by decide)]; exact h4)
      (by rw [mem_escapeHtml (by decide)]; exact h5)]

/-! ## Passes that find a match -/

theorem matchItems_chr_prev {c : Char} {is : Pattern} {caps} (p1 p2 : Option Char)
    (rest : List Char) :
    matchItems (.chr c :: is) caps p1 rest = matchItems (.chr c :: is) caps p2 rest := by
  cases rest <;> rfl

theorem replaceAux_chr_prev {c : Char} {is : Pattern} {t : Template} (fuel : Nat)
    (p1 p2 : Option Char) (rest : List Char) :
    replaceAux (.chr c :: is) t fuel p1 rest = replaceAux (.chr c :: is) t fuel p2 rest := by
  cases fuel with
  | zero => rfl
  | succ n =>
    unfold replaceAux
    rw [matchItems_chr_prev p1 p2 rest]

theorem replaceAux_skip {c : Char} {is : Pattern} {t : Template} :
    ∀ (pre : List Char) (fuel : Nat) (prev : Option Char) (rest : List Char), c ∉ pre →
      replaceAux (.chr c :: is) t (pre.length + fuel) prev (pre ++ rest)
        = pre ++ replaceAux (.chr c :: is) t fuel none rest := by
  intro pre
  induction pre with
  | nil => intro fuel prev rest _; simpa using replaceAux_chr_prev fuel prev none rest
  | cons x xs ih =>
    intro fuel prev rest h
    simp only [List.mem_cons, not_or] at h
    have e : (x :: xs).length + fuel = (xs.length + fuel) + 1 := by simp; omega
    have hm : matchItems (.chr c :: is) [] prev (x :: (xs ++ rest)) = none := by
      simp [matchItems, Ne.symm h.1]
    rw [e, List.cons_append]
    simp only [replaceAux, hm]
    rw [ih fuel (some x) rest h.2]
    rfl

theorem replaceAux_hit {re : Pattern} {t : Template} {fuel : Nat} {prev : Option Char}
    {rest : List Char} {caps p' rest'}
    (hm : matchItems re [] prev rest = some (caps, p', rest'))
    (hlen : rest'.length < rest.length) :
    replaceAux re t (fuel + 1) prev rest = expand t caps ++ replaceAux re t fuel p' rest' := by
  simp [replaceAux, hm, hlen]

/-- A lazy group followed by the literal `d` stops at the first `d` after its
mandatory character when the rest of the pattern matches there. -/
theorem plusLoop_lazy_find (cls : Char → Bool) (d : Char) (is : Pattern)
    (caps : List (List Char)) (rest : List Char) (R : MatchResult) :
    ∀ (pre : List Char) (x : Char) (acc : List Char),
      cls x = true → (∀ c ∈ pre, cls c = true ∧ c ≠ d) →
      matchItems (.chr d :: is) (caps ++ [acc ++ x :: pre]) none (d :: rest) = some R →
      plusLoop false cls (fun cap p r => matchItems (.chr d :: is) (caps ++ [cap]) p r) acc
        (x :: (pre ++ d :: rest)) = some R := by
  intro pre
  induction pre with
  | nil =>
    intro x acc hx _ hk
    unfold plusLoop
    simp only [hx, if_true, Bool.false_eq_true, if_false, List.nil_append]
    rw [matchItems_chr_prev (some x) none, hk]
    rfl
  | cons y ys ih =>
    intro x acc hx hpre hk
    unfold plusLoop
    simp only [hx, if_true, Bool.false_eq_true, if_false, List.cons_append]
    have hy := hpre y (by simp)
    have hnone : matchItems (.chr d :: is) (caps ++ [acc ++ [x]]) (some x)
        (y :: (ys ++ d :: rest)) = none := by
      simp [matchItems, hy.2]
    rw [hnone]
    simp only [Option.orElse]
    exact ih y (acc ++ [x]) hy.1 (fun c hc => hpre c (by simp [hc]))
      (by simpa [List.append_assoc] using hk)

theorem hashAtLineStart_of_no_terminator :
    ∀ (s : List Char) (prev : Option Char), atLineStart prev = false →
      (∀ c ∈ s, isLineTerminator c = false) → hashAtLineStart prev s = false := by
  intro s
  induction s with
  | nil => intro prev _ _; rfl
  | cons x xs ih =>
    intro prev hp hs
    simp only [hashAtLineStart, hp, Bool.false_and, Bool.false_or]
    exact ih (some x) (by simpa [atLineStart] using hs x (by simp))
      (fun c hc => hs c (by simp [hc]))

theorem escapeHtml_of_plain {s : List Char} (h : ∀ c ∈ s, isPlain c = true) :
    escapeHtml s = s := by
  rw [escapeHtml_eq]
  induction s with
  | nil => rfl
  | cons x xs ih =>
    rw [List.flatMap_cons, ih (fun c hc => h c (by simp [hc]))]
    rcases escapeChar_cases x with ⟨rfl, -⟩ | ⟨rfl, -⟩ | ⟨rfl, -⟩ | ⟨-, e⟩
    · exact absurd (h '&' (by simp)) (by decide)
    · exact absurd (h '<' (by simp)) (by decide)
    · exact absurd (h '>' (by simp)) (by decide)
    · rw [e]; rfl

theorem replaceAux_chr_nil {c : Char} {is : Pattern} {t : Template} (fuel : Nat)
    (p : Option Char) : replaceAux (.chr c :: is) t fuel p [] = [] :=
  replaceAux_of_no_match [] fuel p (fun _ _ ht => by
    rw [List.suffix_nil.mp ht]; rfl)

/-- The bold pass on `**_x_**`. -/
theorem replaceAll_boldStar_step {x : List Char}
    (hx : ∀ c ∈ x, isLineTerminator c = false ∧ c ≠ '*') :
    replaceAll reBoldStar tStrong ('*' :: '*' :: '_' :: (x ++ ['_', '*', '*']))
      = "<strong>".toList ++ ('_' :: (x ++ ['_']) ++ "</strong>".toList) := by
  have hm : matchItems reBoldStar [] none ('*' :: '*' :: '_' :: (x ++ ['_', '*', '*']))
      = some (['_' :: (x ++ ['_'])], some '*', []) := by
    have h := plusLoop_lazy_find CharClass.dot.test '*' [.chr '*'] [] ['*']
      (['_' :: (x ++ ['_'])], some '*', []) (x ++ ['_']) '_' [] (by decide)
      (by
        intro c hc
        rcases List.mem_append.mp hc with hc | hc
        · exact ⟨by simpa [CharClass.test] using (hx c hc).1, (hx c hc).2⟩
        · simp only [List.mem_singleton] at hc
          subst hc
          exact ⟨by decide, by decide⟩)
      (by simp [matchItems])
    simp only [reBoldStar, matchItems, if_true]
    simpa [List.append_assoc] using h
  unfold replaceAll
  rw [replaceAux_hit hm (by simp)]
  unfold reBoldStar
  rw [replaceAux_chr_nil]
  simp [tStrong, expand_wrapIn]

/-- The underscore italic pass on `<strong>_x_</strong>`. -/
theorem replaceAll_italicUnder_step {x : List Char} (hne : x ≠ [])
    (hx : ∀ c ∈ x, isLineTerminator c = false ∧ c ≠ '_') :
    replaceAll reItalicUnder tEm
        ("<strong>".toList ++ ('_' :: (x ++ ['_']) ++ "</strong>".toList))
      = "<strong>".toList ++ ("<em>".toList ++ (x ++ ("</em>".toList ++ "</strong>".toList))) := by
  obtain ⟨x0, xs, rfl⟩ := List.exists_cons_of_ne_nil hne
  have h0 := hx x0 (by simp)
  have hm : matchItems reItalicUnder [] none ('_' :: ((x0 :: xs) ++ '_' :: "</strong>".toList))
      = some ([x0 :: xs], some '_', "</strong>".toList) := by
    have h := plusLoop_lazy_find CharClass.dot.test '_' [] [] "</strong>".toList
      ([x0 :: xs], some '_', "</strong>".toList) xs x0 []
      (by simpa [CharClass.test] using h0.1)
      (fun c hc => ⟨by simpa [CharClass.test] using (hx c (by simp [hc])).1,
        (hx c (by simp [hc])).2⟩)
      (by simp [matchItems])
    simp only [reItalicUnder, matchItems, if_true, List.cons_append, List.head?_cons]
    rw [if_neg (by simpa using h0.2)]
    simpa using h
  have e1 : "<strong>".toList ++ ('_' :: ((x0 :: xs) ++ ['_']) ++ "</strong>".toList)
      = "<strong>".toList ++ ('_' :: ((x0 :: xs) ++ '_' :: "</strong>".toList)) := by simp
  have e2 : ("<strong>".toList ++ ('_' :: ((x0 :: xs) ++ '_' :: "</strong>".toList))).length + 1
      = "<strong>".toList.length
        + (('_' :: ((x0 :: xs) ++ '_' :: "</strong>".toList)).length + 0 + 1) := by
    simp only [List.length_append]; omega
  unfold replaceAll
  rw [e1, e2]
  unfold reItalicUnder at hm ⊢
  rw [replaceAux_skip _ _ _ _ (by decide), replaceAux_hit hm (by simp),
    replaceAux_of_no_match _ _ _ (no_match_of_not_mem (by decide))]
  simp [tEm, expand_wrapIn]

/-- The bold-then-italic rendering of `**_x_**`. -/
theorem parseMarkdown_strong_em {x : List Char} (hne : x ≠ [])
    (hx : ∀ c ∈ x, isLineTerminator c = false ∧
      c ∉ ['*', '_', backtick, '[', ']', '&', '<', '>']) :
    parseMarkdown ("**_".toList ++ x ++ "_**".toList)
      = "<strong><em>".toList ++ x ++ "</em></strong>".toList := by
  have hx' : ∀ c ∈ x, isLineTerminator c = false ∧ c ≠ '*' ∧ c ≠ '_' ∧ c ≠ backtick ∧
      c ≠ '[' ∧ c ≠ '&' ∧ c ≠ '<' ∧ c ≠ '>' := by
    intro c hc
    have := (hx c hc).2
    simp only [List.mem_cons, List.mem_singleton, not_or, List.not_mem_nil, or_false] at this
    exact ⟨(hx c hc).1, this.1, this.2.1, this.2.2.1, this.2.2.2.1, this.2.2.2.2.2.1,
      this.2.2.2.2.2.2.1, this.2.2.2.2.2.2.2⟩
  have hstar : '*' ∉ x := fun h => (hx' _ h).2.1 rfl
  have hund : '_' ∉ x := fun h => (hx' _ h).2.2.1 rfl
  have htick : backtick ∉ x := fun h => (hx' _ h).2.2.2.1 rfl
  have hbr : '[' ∉ x := fun h => (hx' _ h).2.2.2.2.1 rfl
  have hnl : '\n' ∉ x := fun h => by
    have := (hx' _ h).1
    exact absurd this (by decide)
  have e0 : "**_".toList ++ x ++ "_**".toList = '*' :: '*' :: '_' :: (x ++ ['_', '*', '*']) := by
    have a : "**_".toList = ['*', '*', '_'] := rfl
    have b : "_**".toList = ['_', '*', '*'] := rfl
    rw [a, b]; simp
  have e9 : "<strong>".toList ++ ("<em>".toList ++ (x ++ ("</em>".toList ++ "</strong>".toList)))
      = "<strong><em>".toList ++ x ++ "</em></strong>".toList := by
    have a : "<strong><em>".toList = "<strong>".toList ++ "<em>".toList := by decide
    have b : "</em></strong>".toList = "</em>".toList ++ "</strong>".toList := by decide
    rw [a, b]; simp
  rw [e0, ← e9]
  have hplain : ∀ c ∈ '*' :: '*' :: '_' :: (x ++ ['_', '*', '*']), isPlain c = true := by
    intro c hc
    simp only [List.mem_cons, List.mem_append, List.mem_singleton, List.not_mem_nil,
      or_false] at hc
    rcases hc with rfl | rfl | rfl | hc | rfl | rfl | rfl
    any_goals decide
    have := hx' c hc
    simp [isPlain, this.2.2.2.2.2.1, this.2.2.2.2.2.2.1, this.2.2.2.2.2.2.2]
  have hhash : hashAtLineStart none ('*' :: '*' :: '_' :: (x ++ ['_', '*', '*'])) = false := by
    have : hashAtLineStart (some '*') ('*' :: '_' :: (x ++ ['_', '*', '*'])) = false := by
      apply hashAtLineStart_of_no_terminator _ _ (by decide)
      intro c hc
      simp only [List.mem_cons, List.mem_append, List.mem_singleton, List.not_mem_nil,
        or_false] at hc
      rcases hc with rfl | rfl | hc | rfl | rfl | rfl
      any_goals decide
      exact (hx' c hc).1
    rw [hashAtLineStart, this]
    decide
  have s2under : ("<strong>".toList ++ ('_' :: (x ++ ['_']) ++ "</strong>".toList)).count '_' < 4 := by
    have a : "<strong>".toList.count '_' = 0 := by decide
    have b : "</strong>".toList.count '_' = 0 := by decide
    simp only [List.count_append, List.count_cons_self, a, b,
      List.count_eq_zero_of_not_mem hund, List.count_nil]
    omega
  have s2star : '*' ∉ "<strong>".toList ++ ('_' :: (x ++ ['_']) ++ "</strong>".toList) := by
    have a : '*' ∉ "<strong>".toList := by decide
    have b : '*' ∉ "</strong>".toList := by decide
    simp [a, b, hstar]
  have s3mem : ∀ d : Char, d ∉ x → d ∉ "<strong>".toList → d ∉ "<em>".toList →
      d ∉ "</em>".toList → d ∉ "</strong>".toList →
      d ∉ "<strong>".toList ++ ("<em>".toList ++ (x ++ ("</em>".toList ++ "</strong>".toList))) := by
    intro d h1 h2 h3 h4 h5
    simp only [List.mem_append, not_or]
    exact ⟨h2, h3, h1, h4, h5⟩
  unfold parseMarkdown
  rw [if_neg (by simp), escapeHtml_of_plain hplain, replaceAll_newline]
  unfold markdownPasses
  rw [show replaceAll reH3 tH3 _ = _ from replaceAll_header hhash,
    show replaceAll reH2 tH2 _ = _ from replaceAll_header hhash,
    show replaceAll reH1 tH1 _ = _ from replaceAll_header hhash,
    replaceAll_boldStar_step (fun c hc => ⟨(hx' c hc).1, (hx' c hc).2.1⟩),
    show replaceAll reBoldUnder tStrong _ = _ from
      replaceAll_of_no_match (no_match_bold_of_count s2under),
    show replaceAll reItalicStar tEm _ = _ from replaceAll_of_not_mem s2star,
    replaceAll_italicUnder_step hne (fun c hc => ⟨(hx' c hc).1, (hx' c hc).2.2.1⟩),
    show replaceAll reCode tCode _ = _ from
      replaceAll_of_not_mem (s3mem _ htick (by decide) (by decide) (by decide) (by decide)),
    show replaceAll reLink tLink _ = _ from
      replaceAll_of_not_mem (s3mem _ hbr (by decide) (by decide) (by decide) (by decide)),
    flatMap_brChar_of_not_mem
      (s3mem _ hnl (by decide) (by decide) (by decide) (by decide))]

/-! ## Plain text -/

theorem ltOnlyBr_of_append : ∀ (a b : List Char), ltOnlyBr (a ++ b) = true → ltOnlyBr b = true := by
  intro a
  induction a with
  | nil => intro b h; simpa using h
  | cons x xs ih =>
    intro b h
    simp only [List.cons_append, ltOnlyBr, Bool.and_eq_true] at h
    exact ih b h.2

theorem ltOnlyBr_escape_br (s : List Char) :
    ltOnlyBr ((s.flatMap escapeChar).flatMap brChar) = true := by
  induction s with
  | nil => rfl
  | cons x xs ih =>
    rw [List.flatMap_cons, List.flatMap_append]
    rcases escapeChar_cases x with ⟨rfl, e⟩ | ⟨rfl, e⟩ | ⟨rfl, e⟩ | ⟨hp, e⟩
    · rw [e, flatMap_brChar_of_not_mem (by decide)]
      simpa [ltOnlyBr] using ih
    · rw [e, flatMap_brChar_of_not_mem (by decide)]
      simpa [ltOnlyBr] using ih
    · rw [e, flatMap_brChar_of_not_mem (by decide)]
      simpa [ltOnlyBr] using ih
    · rw [e]
      by_cases hn : x = '\n'
      · subst hn
        have : ['\n'].flatMap brChar = "<br>".toList := by decide
        rw [this]
        simpa [ltOnlyBr] using ih
      · have hx : x ≠ '<' := by
          intro h; subst h; exact absurd hp (by decide)
        simp [brChar, hn, ltOnlyBr, hx, ih]

theorem not_infix_of_ltOnlyBr {out tag : List Char} (c : Char) (rest : List Char)
    (h : ltOnlyBr out = true) (htag : tag = '<' :: c :: rest) (hc : c ≠ 'b') :
    ¬ tag <:+: out := by
  rintro ⟨p, q, hpq⟩
  subst htag
  rw [List.append_assoc] at hpq
  have := ltOnlyBr_of_append p _ (hpq ▸ h)
  simp [ltOnlyBr, hc] at this

theorem count_flatMap_brChar {c : Char} (h1 : c ≠ '\n') (h2 : c ∉ "<br>".toList)
    (s : List Char) : (s.flatMap brChar).count c = s.count c := by
  induction s with
  | nil => rfl
  | cons x xs ih =>
    rw [List.flatMap_cons, List.count_append, ih]
    by_cases hn : x = '\n'
    · subst hn
      have : brChar '\n' = "<br>".toList := by decide
      rw [this, List.count_eq_zero_of_not_mem h2]
      simp [List.count_cons, Ne.symm h1]
    · simp [brChar, hn, List.count_cons, Nat.add_comm]

theorem isEscaped_no_angle : ∀ (s : List Char), isEscaped s = true →
    ∀ c ∈ s, c ≠ '<' ∧ c ≠ '>' := by
  intro s
  induction s with
  | nil => intro _ c hc; simp at hc
  | cons x xs ih =>
    intro h c hc
    simp only [isEscaped, Bool.and_eq_true] at h
    rcases List.mem_cons.mp hc with rfl | hc
    · by_cases hx : c = '&'
      · subst hx; exact ⟨by decide, by decide⟩
      · simpa [hx] using h.1
    · exact ih h.2 c hc

theorem escapeHtml_of_no_angle {s : List Char} (h : ∀ c ∈ s, c ≠ '<' ∧ c ≠ '>') :
    escapeHtml s = s.flatMap ampChar := by
  rw [escapeHtml_eq]
  induction s with
  | nil => rfl
  | cons x xs ih =>
    rw [List.flatMap_cons, List.flatMap_cons, ih (fun c hc => h c (by simp [hc]))]
    have := h x (by simp)
    simp [escapeChar, ampChar, this.1, this.2]

theorem flatMap_ampChar_of_not_mem {s : List Char} (h : '&' ∉ s) : s.flatMap ampChar = s := by
  induction s with
  | nil => rfl
  | cons x xs ih =>
    simp only [List.mem_cons, not_or] at h
    simp [List.flatMap_cons, ampChar, Ne.symm h.1, ih h.2]

theorem noMarkdownToken_iff {s : List Char} : noMarkdownToken s = true ↔
    hashAtLineStart none s = false ∧ '*' ∉ s ∧ '_' ∉ s ∧ backtick ∉ s ∧ '[' ∉ s ∧ ']' ∉ s := by
  simp only [noMarkdownToken, Bool.and_eq_true, Bool.not_eq_true', List.all_eq_true,
    bne_iff_ne, ne_eq]
  constructor
  · rintro ⟨h1, h2⟩
    exact ⟨h1, fun h => (h2 _ h).1.1.1.1 rfl, fun h => (h2 _ h).1.1.1.2 rfl,
      fun h => (h2 _ h).1.1.2 rfl, fun h => (h2 _ h).1.2 rfl, fun h => (h2 _ h).2 rfl⟩
  · rintro ⟨h1, h2, h3, h4, h5, h6⟩
    refine ⟨h1, fun c hc => ⟨⟨⟨⟨?_, ?_⟩, ?_⟩, ?_⟩, ?_⟩⟩ <;> (rintro rfl; contradiction)

/-! ## C9 -/

/-- C9: markdown precedence. For a non-empty text `x` without line terminators
and without `*`, `_`, backtick, `[`, `]`, `&`, `<`, `>`, the text `**_x_**` renders as
`<strong><em>x</em></strong>`. For a text with exactly one `*`, no `#` at a line
start and no `_`, backtick, `[`, `]`, the output is the escaped text with its line
breaks, so the `*` stays literal (it occurs once in the output), and the output
contains no `em` or `strong` tag. -/
theorem markdown_precedence (x text : List Char) (hne : x ≠ [])
    (hx : ∀ c ∈ x, isLineTerminator c = false ∧
      c ∉ ['*', '_', backtick, '[', ']', '&', '<', '>'])
    (hstar : text.count '*' = 1) (hhash : hashAtLineStart none text = false)
    (htok : ∀ c ∈ text, c ∉ ['_', backtick, '[', ']']) :
    parseMarkdown ("**_".toList ++ x ++ "_**".toList)
        = "<strong><em>".toList ++ x ++ "</em></strong>".toList ∧
      parseMarkdown text = (escapeHtml text).flatMap brChar ∧
      (parseMarkdown text).count '*' = 1 ∧
      ¬ "<em>".toList <:+: parseMarkdown text ∧ ¬ "</em>".toList <:+: parseMarkdown text ∧
      ¬ "<strong>".toList <:+: parseMarkdown text ∧
      ¬ "</strong>".toList <:+: parseMarkdown text := by
  have h3 : '_' ∉ text := fun h => htok _ h (by simp)
  have h4 : backtick ∉ text := fun h => htok _ h (by simp)
  have h5 : '[' ∉ text := fun h => htok _ h (by simp)
  have e := parseMarkdown_of_no_token hhash (le_of_eq hstar) h3 h4 h5
  have hlt : ltOnlyBr (parseMarkdown text) = true := by
    rw [e, escapeHtml_eq]; exact ltOnlyBr_escape_br text
  refine ⟨parseMarkdown_strong_em hne hx, e, ?_, ?_, ?_, ?_, ?_⟩
  · rw [e, count_flatMap_brChar (by decide) (by decide), count_escapeHtml (by decide), hstar]
  · exact not_infix_of_ltOnlyBr 'e' "m>".toList hlt (by decide) (by decide)
  · exact not_infix_of_ltOnlyBr '/' "em>".toList hlt (by decide) (by decide)
  · exact not_infix_of_ltOnlyBr 's' "trong>".toList hlt (by decide) (by decide)
  · exact not_infix_of_ltOnlyBr '/' "strong>".toList hlt (by decide) (by decide)

/-- C9 at `x = "hi there"` and at the text `"2 * 3 < 7"`. -/
theorem markdown_precedence_witness :
    parseMarkdown "**_hi there_**".toList = "<strong><em>hi there</em></strong>".toList ∧
      parseMarkdown "2 * 3 < 7".toList = "2 * 3 &lt; 7".toList :=
  have h := markdown_precedence "hi there".toList "2 * 3 < 7".toList (by decide) (by decide)
    (by decide) (by decide) (by decide)
  ⟨h.1, h.2.1⟩

/-! ## C10 -/

/-- C10 as stated fails: `&amp;` is already escaped and has no markdown token,
and `parseMarkdown` does not return it unchanged. -/
theorem parseMarkdown_escaped_text_changes :
    isEscaped "&amp;".toList = true ∧ noMarkdownToken "&amp;".toList = true ∧
      parseMarkdown "&amp;".toList = "&amp;amp;".toList ∧
      parseMarkdown "&amp;".toList ≠ "&amp;".toList.flatMap brChar := by
  decide

/-- C10, amended: for already escaped text without markdown tokens,
`parseMarkdown` returns the text with every `&` replaced by `&amp;` and every
newline replaced by `<br>`; when the text has no `&` it is returned unchanged
except for the newlines. -/
theorem parseMarkdown_plain_text (text : List Char) (h1 : isEscaped text = true)
    (h2 : noMarkdownToken text = true) :
    parseMarkdown text = (text.flatMap ampChar).flatMap brChar ∧
      ('&' ∉ text → parseMarkdown text = text.flatMap brChar) := by
  obtain ⟨g1, g2, g3, g4, g5, -⟩ := noMarkdownToken_iff.mp h2
  have e := parseMarkdown_of_no_token g1
    (by rw [List.count_eq_zero_of_not_mem g2]; omega) g3 g4 g5
  rw [escapeHtml_of_no_angle (isEscaped_no_angle text h1)] at e
  exact ⟨e, fun h => by rw [e, flatMap_ampChar_of_not_mem h]⟩

/-- C10, amended, at a text whose lines begin with `- `. -/
theorem parseMarkdown_plain_text_witness :
    parseMarkdown "- rent: 5 &gt; 4\n- food".toList
        = "- rent: 5 &amp;gt; 4<br>- food".toList ∧
      parseMarkdown "- rent: 5\n- food".toList = "- rent: 5<br>- food".toList :=
  ⟨(parseMarkdown_plain_text "- rent: 5 &gt; 4\n- food".toList (by decide) (by decide)).1,
   (parseMarkdown_plain_text "- rent: 5\n- food".toList (by decide) (by decide)).2 (by decide)⟩

/-! ## C4 -/

/-- C4 fails: a double quote in the url of a link ends the `href` value, and
the rest of the url becomes further attributes of the anchor. -/
theorem parseMarkdown_link_url_quote :
    parseMarkdown "[a](x\" target=\"_self)".toList
        = "<a href=\"x\" target=\"_self\" target=\"_blank\" rel=\"noopener noreferrer\">a</a>".toList ∧
      ¬ AnchorsWellFormed (parseMarkdown "[a](x\" target=\"_self)".toList) := by
  have e : parseMarkdown "[a](x\" target=\"_self)".toList
      = "<a href=\"x\" target=\"_self\" target=\"_blank\" rel=\"noopener noreferrer\">a</a>".toList := by
    decide
  refine ⟨e, fun h => ?_⟩
  rw [e] at h
  obtain ⟨u, rest, hq, hpost⟩ := h []
    "x\" target=\"_self\" target=\"_blank\" rel=\"noopener noreferrer\">a</a>".toList (by decide)
  have e1 : "x\" target=\"_self\" target=\"_blank\" rel=\"noopener noreferrer\">a</a>".toList
      = 'x' :: '"' :: " target=\"_self\" target=\"_blank\" rel=\"noopener noreferrer\">a</a>".toList :=
    by decide
  have e2 : anchorMid = '"' :: " target=\"_blank\" rel=\"noopener noreferrer\">".toList := by
    decide
  rw [e1, e2] at hpost
  cases u with
  | nil =>
    simp only [List.nil_append, List.cons_append, List.cons.injEq] at hpost
    exact absurd hpost.1 (by decide)
  | cons c u' =>
    cases u' with
    | nil =>
      simp only [List.cons_append, List.nil_append, List.cons.injEq, true_and] at hpost
      have := congrArg (List.take 11) hpost.2
      rw [List.take_append_of_le_length (by decide)] at this
      exact absurd this (by decide)
    | cons c2 u'' =>
      simp only [List.cons_append, List.cons.injEq] at hpost
      exact hq (by simp [← hpost.2.1])

/-! ## The life cycle of a message -/

theorem trim_of_all_trimmed {s : List Char} (h : s.all isTrimmed = true) : trim s = [] := by
  have : s.dropWhile isTrimmed = [] := by
    rw [List.dropWhile_eq_nil_iff]
    simpa using h
  simp [trim, this]

theorem sendRejected_eq_false {message : List Char} {w : Widget} (hm : trim message ≠ [])
    (hp : w.isProcessing = false) : sendRejected message w = false := by
  simp [sendRejected, hm, hp]

theorem sendMessageBegin_of_processing (parseHtml : HtmlParser) {message : List Char}
    {w : Widget} (hp : w.isProcessing = true) : sendMessageBegin parseHtml message w = w := by
  simp [sendMessageBegin, sendRejected, hp]

theorem sendMessageBegin_accepted (parseHtml : HtmlParser) {message : List Char} {w : Widget}
    (h : sendRejected message w = false) :
    sendMessageBegin parseHtml message w =
      { w with isProcessing := true, sendDisabled := true, inputDisabled := true,
               messages := w.messages ++ [userNode message], inputValue := [],
               typingDisplay := .flex, timers := w.timers ++ [.scroll, .scroll],
               requests := w.requests ++ [sendRequest message w] } := by
  simp [sendMessageBegin, h, addMessage, scrollToBottom, setTypingIndicator, dispatch,
    messageNode, userNode, sendRequest]

theorem Busy.apply (parseHtml : HtmlParser) {w : Widget} (h : Busy w) (e : Event) :
    Busy (e.apply parseHtml w) := by
  obtain ⟨h1, h2, h3⟩ := h
  cases e with
  | toggle =>
    simp only [Event.apply, toggleChat, focusInput, h3, if_true, loadConversationHistoryBegin,
      dispatch]
    split <;> exact ⟨h1, h2, by simp [h3]⟩
  | submit =>
    simp only [Event.apply, onSubmit, sendMessageBegin_of_processing parseHtml h1]
    split <;> exact ⟨h1, h2, h3⟩
  | sendCall m =>
    simp only [Event.apply, sendMessageBegin_of_processing parseHtml h1]
    exact ⟨h1, h2, h3⟩
  | historyDone o =>
    have key : ∀ (c : List HistoryEntry) (w0 : Widget), Busy w0 →
        Busy (c.foldl (fun acc msg => addMessage parseHtml (some msg.content) msg.role acc)
          w0) := by
      intro c
      induction c with
      | nil => intro w0 h0; exact h0
      | cons x xs ih => intro w0 h0; exact ih _ h0
    cases o with
    | json data =>
      simp only [Event.apply, loadConversationHistoryResume]
      split
      · exact key _ _ ⟨h1, h2, h3⟩
      · exact ⟨h1, h2, h3⟩
    | fetchRejected => exact ⟨h1, h2, h3⟩
    | notJson => exact ⟨h1, h2, h3⟩
  | clearCall b =>
    simp only [Event.apply, clearConversationBegin, dispatch]
    split <;> exact ⟨h1, h2, h3⟩
  | clearDone o =>
    cases o with
    | json data =>
      simp only [Event.apply, clearConversationResume]
      split <;> exact ⟨h1, h2, h3⟩
    | fetchRejected => exact ⟨h1, h2, h3⟩
    | notJson => exact ⟨h1, h2, h3⟩
  | typeInput v => exact ⟨h1, h2, h3⟩
  | timerFired k =>
    simp only [Event.apply, fireTimer]
    split <;> exact ⟨h1, h2, h3⟩

theorem Busy.runEvents (parseHtml : HtmlParser) {w : Widget} (h : Busy w) (es : List Event) :
    Busy (runEvents parseHtml es w) := by
  induction es generalizing w with
  | nil => exact h
  | cons e es ih => exact ih (h.apply parseHtml e)

theorem sendFinally_idle (w : Widget) :
    (sendFinally w).isProcessing = false ∧ (sendFinally w).sendDisabled = false ∧
      (sendFinally w).inputDisabled = false ∧ (sendFinally w).inputFocused = true := by
  simp [sendFinally, focusInput]

theorem sendMessageResume_idle (parseHtml : HtmlParser) (o : Outcome SendData) (w : Widget) :
    (sendMessageResume parseHtml o w).isProcessing = false ∧
      (sendMessageResume parseHtml o w).sendDisabled = false ∧
      (sendMessageResume parseHtml o w).inputDisabled = false ∧
      (sendMessageResume parseHtml o w).inputFocused = true := by
  cases o <;> exact sendFinally_idle _

theorem foldl_addMessage_messages (parseHtml : HtmlParser) (c : List HistoryEntry) :
    ∀ w0 : Widget,
      (c.foldl (fun acc msg => addMessage parseHtml (some msg.content) msg.role acc)
          w0).messages
        = w0.messages ++ c.map (fun e => messageNode parseHtml (some e.content) e.role) := by
  induction c with
  | nil => intro w0; simp
  | cons x xs ih =>
    intro w0
    simp only [List.foldl_cons, ih, List.map_cons]
    simp [addMessage, scrollToBottom]

/-- What a usable history response makes of the message list: the element
that `querySelector` found, then one node per entry. -/
theorem loadConversationHistory_usable (parseHtml : HtmlParser) (w : Widget)
    (c : List HistoryEntry) (hc : c ≠ []) :
    (loadConversationHistory parseHtml
        (.json { success := true, conversation := some c }) w).messages
      = (welcomeMsg w).toList ++ c.map (fun e => messageNode parseHtml (some e.content) e.role) := by
  have hu : historyUsable { success := true, conversation := some c } = true := by
    simp [historyUsable, hc]
  simp only [loadConversationHistory, loadConversationHistoryResume, hu, if_true,
    foldl_addMessage_messages]
  rfl

/-- A history response that is not usable, or a request that raised, leaves the
message list as it was. -/
theorem loadConversationHistory_unusable (parseHtml : HtmlParser) (w : Widget)
    (c : List HistoryEntry) (ok : Bool) :
    (loadConversationHistory parseHtml
        (.json { success := false, conversation := some c }) w).messages = w.messages ∧
      (loadConversationHistory parseHtml
        (.json { success := ok, conversation := none }) w).messages = w.messages ∧
      (loadConversationHistory parseHtml
        (.json { success := ok, conversation := some [] }) w).messages = w.messages ∧
      (loadConversationHistory parseHtml .fetchRejected w).messages = w.messages ∧
      (loadConversationHistory parseHtml .notJson w).messages = w.messages := by
  refine ⟨?_, ?_, ?_, rfl, rfl⟩ <;>
    simp [loadConversationHistory, loadConversationHistoryResume, historyUsable,
      loadConversationHistoryBegin, dispatch]

/-! ## C2 -/

/-- C2: `sendMessage` does nothing when the message is empty or consists of
white space only, or when `isProcessing` is set: the state (message list, flags,
input value, typing indicator, request log, everything) is unchanged. A second
call made while an accepted first call awaits its response changes nothing, so
the request log has grown by exactly the one send request of the first call. -/
theorem sendMessage_guard (parseHtml : HtmlParser) (message a b : List Char) (w w0 : Widget)
    (o : Outcome SendData)
    (h : message.all isTrimmed = true ∨ w.isProcessing = true)
    (ha : trim a ≠ []) (h0 : w0.isProcessing = false) :
    sendMessageBegin parseHtml message w = w ∧ sendMessage parseHtml message o w = w ∧
      sendMessageBegin parseHtml b (sendMessageBegin parseHtml a w0)
        = sendMessageBegin parseHtml a w0 ∧
      (sendMessageBegin parseHtml b (sendMessageBegin parseHtml a w0)).requests
        = w0.requests ++ [sendRequest a w0] := by
  have hr : sendRejected message w = true := by
    rcases h with h | h
    · simp [sendRejected, trim_of_all_trimmed h]
    · simp [sendRejected, h]
  have e := sendMessageBegin_accepted parseHtml (sendRejected_eq_false ha h0)
  have hb : sendMessageBegin parseHtml b (sendMessageBegin parseHtml a w0)
      = sendMessageBegin parseHtml a w0 :=
    sendMessageBegin_of_processing parseHtml (by rw [e])
  refine ⟨by simp [sendMessageBegin, hr], by simp [sendMessage, hr], hb, ?_⟩
  rw [hb, e]

/-- C2 on the sample state: a blank message, and `"b"` sent while `"a"` is outstanding. -/
theorem sendMessage_guard_witness :
    sendMessageBegin sampleParser "  ".toList freshWidget = freshWidget ∧
      (sendMessageBegin sampleParser "b".toList
          (sendMessageBegin sampleParser "a".toList freshWidget)).requests
        = [sendRequest "a".toList freshWidget] :=
  have h := sendMessage_guard sampleParser "  ".toList "a".toList "b".toList freshWidget
    freshWidget .fetchRejected (Or.inl (by decide)) (by decide) rfl
  ⟨h.1, h.2.2.2⟩

/-! ## C3 -/

/-- C3: after an accepted call the widget is busy (`isProcessing` set, send
button and input disabled), it stays busy through every sequence of other
events, and for every outcome of the request the continuation of `sendMessage`
ends with `isProcessing` cleared, both controls enabled and the input focused. -/
theorem sendMessage_busy_span (parseHtml : HtmlParser) (message : List Char) (w : Widget)
    (es : List Event) (o : Outcome SendData) (hm : trim message ≠ [])
    (hp : w.isProcessing = false) :
    Busy (sendMessageBegin parseHtml message w) ∧
      (∀ es' : List Event,
        Busy (runEvents parseHtml es' (sendMessageBegin parseHtml message w))) ∧
      (sendMessageResume parseHtml o
        (runEvents parseHtml es (sendMessageBegin parseHtml message w))).isProcessing = false ∧
      (sendMessageResume parseHtml o
        (runEvents parseHtml es (sendMessageBegin parseHtml message w))).sendDisabled = false ∧
      (sendMessageResume parseHtml o
        (runEvents parseHtml es (sendMessageBegin parseHtml message w))).inputDisabled = false ∧
      (sendMessageResume parseHtml o
        (runEvents parseHtml es (sendMessageBegin parseHtml message w))).inputFocused = true ∧
      (sendMessage parseHtml message o w).isProcessing = false ∧
      (sendMessage parseHtml message o w).sendDisabled = false ∧
      (sendMessage parseHtml message o w).inputDisabled = false ∧
      (sendMessage parseHtml message o w).inputFocused = true := by
  have hr := sendRejected_eq_false hm hp
  have hb : Busy (sendMessageBegin parseHtml message w) := by
    rw [sendMessageBegin_accepted parseHtml hr]
    exact ⟨rfl, rfl, rfl⟩
  have h1 := sendMessageResume_idle parseHtml o
    (runEvents parseHtml es (sendMessageBegin parseHtml message w))
  have h2 := sendMessageResume_idle parseHtml o (sendMessageBegin parseHtml message w)
  refine ⟨hb, fun es' => hb.runEvents parseHtml es', h1.1, h1.2.1, h1.2.2.1, h1.2.2.2,
    ?_, ?_, ?_, ?_⟩ <;>
    simp only [sendMessage, hr, Bool.false_eq_true, if_false]
  · exact h2.1
  · exact h2.2.1
  · exact h2.2.2.1
  · exact h2.2.2.2

/-- C3 on the sample state, with a toggle and a second submit in between and a
response that is not JSON. -/
theorem sendMessage_busy_span_witness :
    Busy (sendMessageBegin sampleParser "hi".toList freshWidget) ∧
      (sendMessage sampleParser "hi".toList .notJson freshWidget).isProcessing = false ∧
      (sendMessage sampleParser "hi".toList .notJson freshWidget).inputFocused = true :=
  have h := sendMessage_busy_span sampleParser "hi".toList freshWidget [.toggle, .submit]
    .notJson (by decide) rfl
  ⟨h.1, h.2.2.2.2.2.2.1, h.2.2.2.2.2.2.2.2.2⟩

/-! ## C5 -/

/-- C5: an accepted `sendMessage(m)` answered by `{success: true, response: r}`
appends to the message list the user node with the literal text `m` and then the
assistant node with the HTML `parseMarkdown(r)`, and leaves the earlier nodes as
they were; for `r = "**hi**"` that HTML is `<strong>hi</strong>`. -/
theorem sendMessage_success (parseHtml : HtmlParser) (m r : List Char)
    (err : Option (List Char)) (w : Widget)
    (hm : trim m ≠ []) (hp : w.isProcessing = false) :
    (sendMessage parseHtml m
        (.json { success := true, response := some r, error := err }) w).messages
        = w.messages ++ [userNode m, assistantNode parseHtml (parseMarkdown r)] ∧
      parseMarkdown "**hi**".toList = "<strong>hi</strong>".toList := by
  have hr := sendRejected_eq_false hm hp
  refine ⟨?_, by decide⟩
  simp only [sendMessage, hr, Bool.false_eq_true, if_false,
    sendMessageBegin_accepted parseHtml hr]
  simp [sendMessageResume, sendFinally, focusInput, addMessage, scrollToBottom,
    setTypingIndicator, messageNode, assistantNode]

/-- C5 on the sample state with the reply `**hi**`. -/
theorem sendMessage_success_witness :
    (sendMessage sampleParser "<b>hello</b>".toList
        (.json { success := true, response := some "**hi**".toList, error := none })
        freshWidget).messages
      = [welcomeNode, userNode "<b>hello</b>".toList,
          assistantNode sampleParser "<strong>hi</strong>".toList] :=
  (sendMessage_success sampleParser "<b>hello</b>".toList "**hi**".toList none freshWidget
    (by decide) rfl).1

/-! ## C6 -/

/-- C6: an accepted `sendMessage(m)` whose outcome is not a success appends the
user node and then exactly one error node, and hides the typing indicator. The
text of the error node is the warning sign (U+26A0, U+FE0F) and a blank, followed
by the error text of the response when there is a non-empty one, by
`Failed to get response. Please try again.` when the response has no error text,
and by `Network error. Please check your connection and try again.` when `fetch`
or the JSON decoding raised. -/
theorem sendMessage_failure (parseHtml : HtmlParser) (m : List Char) (w : Widget)
    (r : Option (List Char)) (e : List Char) (hm : trim m ≠ [])
    (hp : w.isProcessing = false) (he : e ≠ []) :
    (sendMessage parseHtml m
        (.json { success := false, response := r, error := some e }) w).messages
        = w.messages ++ [userNode m,
            { classes := ["chatbot-error-message"],
              content := .text (Char.ofNat 0x26A0 :: Char.ofNat 0xFE0F :: ' ' :: e),
              children := .nil, ref := none }] ∧
      (sendMessage parseHtml m
        (.json { success := false, response := r, error := none }) w).messages
        = w.messages ++ [userNode m,
            { classes := ["chatbot-error-message"],
              content := .text (Char.ofNat 0x26A0 :: Char.ofNat 0xFE0F :: ' ' ::
                "Failed to get response. Please try again.".toList),
              children := .nil, ref := none }] ∧
      (sendMessage parseHtml m
        (.json { success := false, response := r, error := some [] }) w).messages
        = w.messages ++ [userNode m,
            { classes := ["chatbot-error-message"],
              content := .text (Char.ofNat 0x26A0 :: Char.ofNat 0xFE0F :: ' ' ::
                "Failed to get response. Please try again.".toList),
              children := .nil, ref := none }] ∧
      (sendMessage parseHtml m .fetchRejected w).messages
        = w.messages ++ [userNode m,
            { classes := ["chatbot-error-message"],
              content := .text (Char.ofNat 0x26A0 :: Char.ofNat 0xFE0F :: ' ' ::
                "Network error. Please check your connection and try again.".toList),
              children := .nil, ref := none }] ∧
      (sendMessage parseHtml m .notJson w).messages
        = w.messages ++ [userNode m,
            { classes := ["chatbot-error-message"],
              content := .text (Char.ofNat 0x26A0 :: Char.ofNat 0xFE0F :: ' ' ::
                "Network error. Please check your connection and try again.".toList),
              children := .nil, ref := none }] ∧
      (∀ o : Outcome SendData, (sendMessage parseHtml m o w).typingDisplay = .none) := by
  have hr := sendRejected_eq_false hm hp
  have hpre : ∀ t : List Char,
      warningPrefix ++ t = Char.ofNat 0x26A0 :: Char.ofNat 0xFE0F :: ' ' :: t := by
    intro t
    have : warningPrefix = [Char.ofNat 0x26A0, Char.ofNat 0xFE0F, ' '] := by decide
    rw [this]; rfl
  refine ⟨?_, ?_, ?_, ?_, ?_, ?_⟩
  · simp only [sendMessage, hr, Bool.false_eq_true, if_false,
      sendMessageBegin_accepted parseHtml hr]
    simp [sendMessageResume, sendFinally, focusInput, addErrorMessage, scrollToBottom,
      setTypingIndicator, he, errorNode, hpre]
  · simp only [sendMessage, hr, Bool.false_eq_true, if_false,
      sendMessageBegin_accepted parseHtml hr]
    simp [sendMessageResume, sendFinally, focusInput, addErrorMessage, scrollToBottom,
      setTypingIndicator, errorNode, hpre]
  · simp only [sendMessage, hr, Bool.false_eq_true, if_false,
      sendMessageBegin_accepted parseHtml hr]
    simp [sendMessageResume, sendFinally, focusInput, addErrorMessage, scrollToBottom,
      setTypingIndicator, errorNode, hpre]
  · simp only [sendMessage, hr, Bool.false_eq_true, if_false,
      sendMessageBegin_accepted parseHtml hr]
    simp [sendMessageResume, sendFinally, focusInput, addErrorMessage, scrollToBottom,
      setTypingIndicator, consoleError, errorNode, hpre]
  · simp only [sendMessage, hr, Bool.false_eq_true, if_false,
      sendMessageBegin_accepted parseHtml hr]
    simp [sendMessageResume, sendFinally, focusInput, addErrorMessage, scrollToBottom,
      setTypingIndicator, consoleError, errorNode, hpre]
  · intro o
    simp only [sendMessage, hr, Bool.false_eq_true, if_false,
      sendMessageBegin_accepted parseHtml hr]
    cases o with
    | json data =>
      cases hs : data.success <;>
        simp [sendMessageResume, sendFinally, focusInput, addErrorMessage, addMessage,
          scrollToBottom, setTypingIndicator, hs]
    | fetchRejected =>
      simp [sendMessageResume, sendFinally, focusInput, addErrorMessage, scrollToBottom,
        setTypingIndicator, consoleError]
    | notJson =>
      simp [sendMessageResume, sendFinally, focusInput, addErrorMessage, scrollToBottom,
        setTypingIndicator, consoleError]

/-- C6 on the sample state: a server error text and a rejected `fetch`. -/
theorem sendMessage_failure_witness :
    (sendMessage sampleParser "hi".toList
        (.json { success := false, response := none, error := some "Quota exceeded".toList })
        freshWidget).messages
      = [welcomeNode, userNode "hi".toList,
          { classes := ["chatbot-error-message"],
            content := .text "⚠️ Quota exceeded".toList, children := .nil, ref := none }] ∧
    (sendMessage sampleParser "hi".toList .fetchRejected freshWidget).messages
      = [welcomeNode, userNode "hi".toList,
          { classes := ["chatbot-error-message"],
            content := .text
              "⚠️ Network error. Please check your connection and try again.".toList,
            children := .nil, ref := none }] :=
  have h := sendMessage_failure sampleParser "hi".toList freshWidget none
    "Quota exceeded".toList (by decide) rfl (by decide)
  ⟨h.1, h.2.2.2.1⟩

/-! ## C7 -/

/-- C7: when the confirmation is declined, `clearConversation` leaves the whole
state unchanged (no request, same message list); a confirmed call dispatches
one request to the clear endpoint; and no other event adds a request to the
clear endpoint. -/
theorem clearConversation_confirmation (parseHtml : HtmlParser) (w : Widget)
    (o : Outcome ClearData) :
    clearConversationBegin false w = w ∧ clearConversation false o w = w ∧
      (clearConversationBegin true w).requests = w.requests ++ [clearRequest w] ∧
      (∀ e : Event, clearRequests (e.apply parseHtml w) ≠ clearRequests w →
        e = .clearCall true) := by
  refine ⟨rfl, rfl, rfl, ?_⟩
  intro e he
  cases e with
  | toggle =>
    exfalso; apply he
    simp only [Event.apply, toggleChat, loadConversationHistoryBegin, dispatch, focusInput,
      clearRequests]
    split <;> (try split) <;> simp
  | submit =>
    exfalso; apply he
    simp only [Event.apply, onSubmit, sendMessageBegin, clearRequests]
    split
    · rfl
    · split
      · rfl
      · simp [dispatch, setTypingIndicator, addMessage, scrollToBottom]
  | sendCall m =>
    exfalso; apply he
    simp only [Event.apply, sendMessageBegin, clearRequests]
    split
    · rfl
    · simp [dispatch, setTypingIndicator, addMessage, scrollToBottom]
  | historyDone o' =>
    exfalso; apply he
    have key : ∀ (c : List HistoryEntry) (w0 : Widget),
        (c.foldl (fun acc msg => addMessage parseHtml (some msg.content) msg.role acc)
            w0).requests
          = w0.requests := by
      intro c
      induction c with
      | nil => intro w0; rfl
      | cons x xs ih => intro w0; rw [List.foldl_cons, ih]; rfl
    cases o' with
    | json data =>
      simp only [Event.apply, loadConversationHistoryResume, clearRequests]
      split
      · rw [key]; rfl
      · rfl
    | fetchRejected => rfl
    | notJson => rfl
  | clearCall b =>
    cases b with
    | true => rfl
    | false => exact absurd rfl he
  | clearDone o' =>
    exfalso; apply he
    cases o' with
    | json data =>
      simp only [Event.apply, clearConversationResume, clearRequests]
      split <;> rfl
    | fetchRejected => rfl
    | notJson => rfl
  | typeInput v => exact absurd rfl he
  | timerFired k =>
    exfalso; apply he
    simp only [Event.apply, fireTimer, clearRequests]
    split <;> rfl

/-- C7 on the sample state. -/
theorem clearConversation_confirmation_witness :
    clearConversation false (.json { success := true }) freshWidget = freshWidget ∧
      (clearConversationBegin true freshWidget).requests = [clearRequest freshWidget] :=
  have h := clearConversation_confirmation sampleParser freshWidget
    (.json { success := true })
  ⟨h.2.1, h.2.2.1⟩

/-! ## C8 -/

/-- C8 fails: on a page without welcome banner, an assistant message of the
history whose link url carries `" class="chatbot-welcome-message` is rendered to an
anchor with that class, `querySelector` finds the anchor inside the assistant
node at the next history load, and the anchor is put back as first node: a
piece of the previous content survives although no banner was present. -/
theorem loadConversationHistory_keeps_injected_anchor (parseHtml : HtmlParser)
    (hparse : parseHtml injectedAnchorHtml = injectedAnchor) :
    parseMarkdown injectedMessage = injectedAnchorHtml ∧
      welcomeMsg bareWidget = none ∧
      (loadConversationHistory parseHtml
        (.json { success := true,
                 conversation :=
                   some [{ role := "assistant".toList, content := injectedMessage }] })
        bareWidget).messages = [assistantNode parseHtml injectedAnchorHtml] ∧
      (loadConversationHistory parseHtml
        (.json { success := true,
                 conversation := some [{ role := "user".toList, content := "hi".toList }] })
        (loadConversationHistory parseHtml
          (.json { success := true,
                   conversation :=
                     some [{ role := "assistant".toList, content := injectedMessage }] })
          bareWidget)).messages
        = [{ classes := ["chatbot-welcome-message"], content := .given, children := .nil,
             ref := none },
           userNode "hi".toList] := by
  have e : parseMarkdown injectedMessage = injectedAnchorHtml := by decide
  have e1 : (loadConversationHistory parseHtml
        (.json { success := true,
                 conversation :=
                   some [{ role := "assistant".toList, content := injectedMessage }] })
        bareWidget).messages = [assistantNode parseHtml injectedAnchorHtml] := by
    rw [loadConversationHistory_usable parseHtml _ _ (by simp)]
    simp [messageNode, assistantNode, e]
    decide
  refine ⟨e, by decide, e1, ?_⟩
  rw [loadConversationHistory_usable parseHtml _ _ (by simp)]
  have hw : welcomeMsg (loadConversationHistory parseHtml
        (.json { success := true,
                 conversation :=
                   some [{ role := "assistant".toList, content := injectedMessage }] })
        bareWidget)
      = some { classes := ["chatbot-welcome-message"], content := .given, children := .nil,
               ref := none } := by
    unfold welcomeMsg
    rw [e1]
    simp [querySelector, assistantNode, hparse, injectedAnchor, Forest.find]
  rw [hw]
  simp [messageNode, userNode]

/-- C8's failing input with the sample parser. -/
theorem loadConversationHistory_keeps_injected_anchor_witness :
    (loadConversationHistory sampleParser
        (.json { success := true,
                 conversation := some [{ role := "user".toList, content := "hi".toList }] })
        (loadConversationHistory sampleParser
          (.json { success := true,
                   conversation :=
                     some [{ role := "assistant".toList, content := injectedMessage }] })
          bareWidget)).messages
      = [{ classes := ["chatbot-welcome-message"], content := .given, children := .nil,
           ref := none },
         userNode "hi".toList] :=
  (loadConversationHistory_keeps_injected_anchor sampleParser (by decide)).2.2.2

/-! ## Sample renderings -/

/-- C1 at an input with the three special characters, a link and a line break. -/
theorem parseMarkdown_special_characters_witness :
    parseMarkdown "<i> & [x](y)\n>".toList
        = "&lt;i&gt; &amp; <a href=\"y\" target=\"_blank\" rel=\"noopener noreferrer\">x</a><br>&gt;".toList ∧
      Rendered (parseMarkdown "<i> & [x](y)\n>".toList) :=
  ⟨by decide, (parseMarkdown_special_characters "<i> & [x](y)\n>".toList).1⟩

/-- Headings of the three levels, each on its own line. -/
theorem parseMarkdown_sample_headings :
    parseMarkdown "# A\n## B\n### C\n#### D".toList
      = "<h1>A</h1><br><h2>B</h2><br><h3>C</h3><br>#### D".toList := by
  decide

/-- The inline forms inside a heading. -/
theorem parseMarkdown_sample_inline :
    parseMarkdown "## a *b* __c__ [t](u)".toList
      = "<h2>a <em>b</em> <strong>c</strong> <a href=\"u\" target=\"_blank\" rel=\"noopener noreferrer\">t</a></h2>".toList := by
  decide

/-- Three stars on both sides: the bold pass takes the first two and the last
two of the first five, the italic pass pairs the remaining ones. -/
theorem parseMarkdown_sample_stars :
    parseMarkdown "***a***".toList = "<strong><em>a</strong></em>".toList := by
  decide

/-- A carriage return starts a line for the heading patterns and is not
turned into a line break. -/
theorem parseMarkdown_sample_carriage_return :
    parseMarkdown "a\r# b".toList = "a\r<h1>b</h1>".toList := by
  decide

/-- The link text and the url may hold a newline, which the last pass replaces
inside the attribute as well. -/
theorem parseMarkdown_sample_link_newline :
    parseMarkdown "[a\nb](c\nd)".toList
      = "<a href=\"c<br>d\" target=\"_blank\" rel=\"noopener noreferrer\">a<br>b</a>".toList := by
  decide

/-- The cookie string of the sample state yields its token. -/
theorem getCsrfToken_sample :
    getCsrfToken "sessionid=1; csrftoken=abc; theme=dark".toList = "abc".toList ∧
      getCsrfToken "sessionid=1".toList = [] := by
  decide

end Chatbot
